import Mathlib

/-!
# A shallow embedding of the glide-framework compiler/executor core

This file embeds the Go sources of `common-fate/glide` (the workflow
compiler and graph executor) into Lean 4 and settles a list of claims
about them.

Layout of the embedding, with the Go source each part mirrors:

* `Glide.node` — `pkg/node/node.go`: node types and the `Node` record.
* `Glide.step` — `pkg/step` (`part_005`): step bodies, the `Step` tree,
  the graph `Hash` function and `parseNodeRef`.
* `Glide.noderr` — `pkg/noderr` (`part_007`): `NodeError` and `Wrap`.
* `Glide.jsoncel` — `pkg/jsoncel` (`part_008`): the JSON-schema type
  provider (`mapSchema`, `FindType`).
* `Glide.graph` — the subset of `dominikbraun/graph` the repository
  uses (directed graph with cycle prevention, predecessor map, BFS).
* `Glide.compiler` — `compiler.go` (`part_000`): `visitStatement`,
  `compilePass`, `Compiler.Compile`.
* `Glide.exec` — `execute.go`: `State`, `NewInputMap`, `Execute`.

External collaborators (the CEL expression library, the YAML parser,
the Go `ast.Node` source handle) are modelled as opaque parameters or
small abstract records, exactly at the boundary where the repository
calls them; all logic of the repository itself is translated
faithfully, including its dead branches.

Go maps iterate in unspecified order; wherever the source ranges over
a map whose iteration order can be observed (the adjacency map inside
BFS, predecessor maps), the embedding fixes insertion order, which is
one of the admissible orders.
-/

namespace Glide

/-! ## pkg/node (`node.go`) -/

namespace node

/-- `node.Type` from `node.go`: `Unknown`, `Start`, `Outcome` (iota order). -/
inductive NType where
  | unknown
  | start
  | outcome
deriving DecidableEq, Repr

/-- `func (t Type) String()` from `node.go`: `"start"` for `Start`,
`"outcome"` for everything else (including `Unknown`). -/
def NType.string : NType → String
  | .start => "start"
  | _ => "outcome"

/-- `node.Node` from `node.go`. `Priority` is a Go `int`, embedded as `Int`. -/
structure Node where
  type : NType
  id : String
  name : String
  priority : Int
deriving DecidableEq, Repr

/-- The Go zero value of `node.Node` (`var outcome node.Node` in `Execute`). -/
def Node.zero : Node := ⟨.unknown, "", "", 0⟩

end node

/-! ## Input values

The executor receives `input map[string]any` and flattens it with
`NewInputMap`.  Go's `any` values are embedded as a small JSON-like
inductive; the executor itself only ever re-passes these values, so the
constructors just need to cover maps (which flattening recurses into)
and non-map leaves. -/

/-- A Go `any` value as it appears in the executor's input maps. -/
inductive GoVal where
  | str (s : String)
  | boolv (b : Bool)
  | intv (n : Int)
  | obj (fields : List (String × GoVal))
  | listv (elems : List GoVal)
  | nullv
deriving Repr

/-- A Go `map[string]any`, in insertion order. -/
abbrev GoMap := List (String × GoVal)

/-! ## The CEL boundary

`cel.Env`, compiled ASTs and `cel.Program` are external (google/cel-go).
The repository observes exactly: whether `Env.Compile` fails, the
compiled AST's `OutputType()`, whether `Env.Program` fails, the result
of `prg.Eval(inputMap.Data)`, and whether `val.Value()` is a Go bool.
The records below expose precisely that interface. -/

/-- A CEL value as observed by the executor: either a Go bool or
something else (whose rendering only feeds an error message). -/
inductive CelVal where
  | boolVal (b : Bool)
  | otherVal (rendered : String)

/-- A compiled `cel.Program`: evaluation on the flattened input either
errors or yields a value. -/
def CelProgram := GoMap → Except String CelVal

/-- The `OutputType()` of a compiled CEL AST, as the compiler observes
it: `cel.BoolType` or some other type (rendered for the error message). -/
inductive CelType where
  | bool
  | other (rendered : String)
deriving DecidableEq

/-- A compiled CEL AST (`cel.Ast`) plus the result of `Env.Program` on it. -/
structure CelAst where
  outputType : CelType
  program : Except String CelProgram

/-- A CEL environment: `Env.Compile` either reports issues or yields an AST. -/
structure CelEnv where
  compile : String → Except String CelAst

/-! ## pkg/step (`part_005`): step bodies and the `Step` tree -/

namespace step

/-- `step.Operation` from `part_005`: `And`, `Or` (iota order). -/
inductive Operation where
  | and
  | or
deriving DecidableEq, Repr

/-- `step.Body` from `part_005`, flattened from a Go interface with a
dynamic type switch into a tagged sum.

An `Action` carries `Action any`; the executor only observes whether
that payload implements the `Completer` interface and, if so, what
`Complete(input)` returns, so the payload is embedded as an optional
completion function on the raw input. -/
inductive Body where
  | check (expression : String)
  | boolean (op : Operation)
  | ref (node : node.Node)
  | action (name : String) (complete : Option (GoMap → Except String Bool))

/-- `step.Step` from `part_005`.  The YAML source handle `Node ast.Node`
is opaque to all the logic embedded here (it is only stored into
errors), so it is embedded as an `Option Nat` tag (`none` = Go `nil`). -/
inductive Step where
  | mk (position : List Nat) (name : String) (body : Body)
       (children : List Step) (node : Option Nat) (pass : String)

def Step.position : Step → List Nat | .mk p _ _ _ _ _ => p
def Step.name : Step → String | .mk _ n _ _ _ _ => n
def Step.body : Step → Body | .mk _ _ b _ _ _ => b
def Step.children : Step → List Step | .mk _ _ _ c _ _ => c
def Step.node : Step → Option Nat | .mk _ _ _ _ n _ => n
def Step.pass : Step → String | .mk _ _ _ _ _ p => p

def Step.withPosition (s : Step) (pos : List Nat) : Step :=
  match s with | .mk _ n b c nd p => .mk pos n b c nd p

def Step.withName (s : Step) (name : String) : Step :=
  match s with | .mk pos _ b c nd p => .mk pos name b c nd p

def Step.withBody (s : Step) (b : Body) : Step :=
  match s with | .mk pos n _ c nd p => .mk pos n b c nd p

/-- `step.Hash` from `part_005`: `Ref` bodies hash to the node id alone;
every other body hashes to `Pass + "." + strings.Join(position, ".")`. -/
def Hash (s : Step) : String :=
  match s.body with
  | .ref n => n.id
  | _ => s.pass ++ "." ++ String.intercalate "." (s.position.map toString)

end step

/-! ## pkg/noderr (`part_007`) -/

namespace noderr

/-- A Go `error` value as produced inside this repository: either a
plain error (from `fmt.Errorf` / `errors.New` / `errors.Wrapf`, carrying
only a message) or a `noderr.NodeError` wrapping an inner error together
with the YAML source handle. -/
inductive GErr where
  | plain (msg : String)
  | nodeError (err : GErr) (node : Option Nat)
deriving DecidableEq, Repr

/-- The `errors.Is(err, &ne)` test inside `noderr.Wrap`, where `ne` is a
freshly declared zero `NodeError` and `&ne` its address.

`errors.Is` matches when `err == target` under Go interface equality or
when some `Is`/`Unwrap` chain reaches the target.  `NodeError` declares
neither an `Is` nor an `Unwrap` method, errors in this repository are
`NodeError` *values* (never pointers), and no error can alias the
address of the function-local `ne`; the dynamic types `NodeError` and
`*NodeError` already differ, so the equality test fails at every
unwrapping step.  The test is therefore `false` for every argument. -/
def errorsIsNodeErrPtr (_ : GErr) : Bool := false

/-- `noderr.Wrap` from `part_007`, including its (inoperative)
double-wrap suppression test. -/
def Wrap (err : GErr) (node : Option Nat) : GErr :=
  if errorsIsNodeErrPtr err then err else .nodeError err node

end noderr

/-! ## pkg/dialect (`cf_test.go` part: `dialect.go`) -/

namespace dialect

/-- `dialect.Dialect`.  `Nodes` is a Go map embedded as an association
list (first match wins on lookup; the embedded operations only read it).
The `Actions` factory is consumed by the YAML parser, which is outside
the embedded core, so it is omitted here. -/
structure Dialect where
  nodes : List (String × node.Node)

/-- Lookup in the dialect's `Nodes` map (`d.Nodes[expr]`). -/
def Dialect.find (d : Dialect) (id : String) : Option node.Node :=
  (d.nodes.find? (fun kv => kv.1 == id)).map Prod.snd

end dialect

namespace step

/-- `(*Step).parseNodeRef` from `part_005`, after the YAML library has
extracted the referenced id string (`yaml.NodeToValue(body, &expr)`,
whose failure happens before any of the embedded logic runs).

Faithfully keeps the source's mismatch test `n.Type != nodeType`, which
compares the freshly-built node's type — just assigned from `nodeType` —
against `nodeType` itself. -/
def parseNodeRef (e : Step) (expr : String) (d : dialect.Dialect)
    (nodeType : node.NType) : Except noderr.GErr Step :=
  let n : node.Node := { type := nodeType, id := expr, name := "", priority := 0 }
  match d.find expr with
  | some def_ =>
      if n.type ≠ nodeType then
        .error (.plain (expr ++ " can only be used as a " ++ nodeType.string ++ " step"))
      else
        let n := { def_ with id := expr }
        .ok ((e.withName def_.name).withBody (.ref n))
  | none => .ok (e.withBody (.ref n))

end step

/-! ## Association-list embedding of Go maps

Go `map` writes overwrite; the embeddings below keep keys unique by
updating in place, so `find?` agrees with the Go read. -/

/-- Write `m[k] = v` with Go map semantics. -/
def mapInsert {α : Type} (m : List (String × α)) (k : String) (v : α) :
    List (String × α) :=
  if (m.find? (fun kv => kv.1 == k)).isSome then
    m.map (fun kv => if kv.1 == k then (k, v) else kv)
  else
    m ++ [(k, v)]

/-- Read `m[k]` with Go map semantics (`none` = absent). -/
def mapGet {α : Type} (m : List (String × α)) (k : String) : Option α :=
  (m.find? (fun kv => kv.1 == k)).map Prod.snd

/-! ## pkg/jsoncel (`part_008`): the schema type provider

The `Schema` struct itself is vendored from `invopop/jsonschema` and its
declaration is not among the sources; its shape is modelled from the
spec (§4.3: `type ∈ {null, boolean, object, array, number, integer,
string}`, `properties`, optional `additionalProperties` with the
`TrueSchema` sentinel meaning `true`) and from how `part_008` reads it
(`f.Type` switch, `f.AdditionalProperties == TrueSchema`,
`s.Properties` iteration). -/

namespace jsoncel

/-- The `Type` field of a schema node.  `tnone` is the Go zero value (a
schema without a `type`), on which no `switch` case in `FindType`
matches. -/
inductive SchemaType where
  | tnone
  | null
  | boolean
  | object
  | array
  | number
  | integer
  | string
deriving DecidableEq, Repr

/-- Modelled from the spec: a JSON-Schema-subset node.
`additionalPropertiesTrue` embeds the test
`AdditionalProperties == TrueSchema` of the source. -/
inductive Schema where
  | mk (type : SchemaType) (properties : List (String × Schema))
       (additionalPropertiesTrue : Bool)

def Schema.type : Schema → SchemaType | .mk t _ _ => t
def Schema.properties : Schema → List (String × Schema) | .mk _ p _ => p
def Schema.additionalPropertiesTrue : Schema → Bool | .mk _ _ a => a

/-- A CEL declaration type (`google/cel-go` `decls`), as far as
`FindType`/`FindFieldType` produce them. -/
inductive CelDeclType where
  | nullType
  | boolType
  | anyType
  | objectType (name : String)
  | listType (elem : CelDeclType)
  | doubleType
  | stringType
  | intType
deriving DecidableEq, Repr

mutual

/-- `(*Provider).mapSchema` from `part_008`: register `(key, s)`, then
recurse into each property under `key + "." + childKey`.  (Go iterates
the `Properties` map in unspecified order; the embedding fixes the
list order, which only affects overwrite order on colliding dotted
keys.) -/
def mapSchema (tm : List (String × Schema)) (key : String) (s : Schema) :
    List (String × Schema) :=
  match s with
  | .mk t props ap => mapSchemaProps (mapInsert tm key (.mk t props ap)) key props

/-- The property loop inside `mapSchema`. -/
def mapSchemaProps (tm : List (String × Schema)) (key : String) :
    List (String × Schema) → List (String × Schema)
  | [] => tm
  | (childKey, child) :: rest =>
      mapSchemaProps (mapSchema tm (key ++ "." ++ childKey) child) key rest

end

/-- `jsoncel.Provider`.  The fallback proto registry
(`types.NewEmptyRegistry()`) is external; it is embedded as an opaque
lookup function. -/
structure Provider where
  typeName : String
  schema : Schema
  typeMap : List (String × Schema)
  protosFindType : String → Option CelDeclType

/-- `jsoncel.NewProvider` from `part_008`: a `nil` schema is replaced by
the zero `&Schema{}`, then the type map is built. -/
def NewProvider (typeName : String) (schema : Option Schema)
    (protos : String → Option CelDeclType) : Provider :=
  let schema := schema.getD (.mk .tnone [] false)
  { typeName := typeName
    schema := schema
    typeMap := mapSchema [] typeName schema
    protosFindType := protos }

/-- `(*Provider).FindType` from `part_008`.  A hit in the type map is
dispatched on the schema node's `Type`; an `object` with
`AdditionalProperties == TrueSchema` becomes the `any` type; a miss (or
a hit whose `Type` matches no switch case, i.e. the zero type) falls
through to the proto registry. -/
def Provider.FindType (p : Provider) (typeName : String) : Option CelDeclType :=
  match mapGet p.typeMap typeName with
  | some f =>
      match f.type with
      | .null => some .nullType
      | .boolean => some .boolType
      | .object =>
          if f.additionalPropertiesTrue then some .anyType
          else some (.objectType typeName)
      | .array => some (.listType .stringType)
      | .number => some .doubleType
      | .string => some .stringType
      | .integer => some .intType
      | .tnone => p.protosFindType typeName
  | none => p.protosFindType typeName

end jsoncel

/-! ## The `dominikbraun/graph` subset

The repository builds `graph.New(step.Hash, graph.Directed(),
graph.PreventCycles())` and uses `AddVertex`, `AddEdge`, `Vertex`,
`PredecessorMap`, `AdjacencyMap` and `BFS`.  Vertices and edges are
kept in insertion order. -/

namespace graph

/-- The graph-library errors the repository can observe. -/
inductive GraphErr where
  | vertexAlreadyExists
  | vertexNotFound
  | edgeAlreadyExists
  | edgeCreatesCycle
deriving DecidableEq, Repr

def GraphErr.msg : GraphErr → String
  | .vertexAlreadyExists => "vertex already exists"
  | .vertexNotFound => "vertex not found"
  | .edgeAlreadyExists => "edge already exists"
  | .edgeCreatesCycle => "an edge between these two vertices would introduce a cycle"

/-- A directed graph of steps keyed by `step.Hash`, with insertion-order
vertex and edge lists. -/
structure Digraph where
  vertices : List (String × step.Step)
  edges : List (String × String)

def Digraph.empty : Digraph := ⟨[], []⟩

/-- `g.Vertex(k)` (the step stored under key `k`). -/
def Digraph.vertex (g : Digraph) (k : String) : Option step.Step :=
  mapGet g.vertices k

def Digraph.hasVertex (g : Digraph) (k : String) : Bool :=
  (g.vertex k).isSome

/-- `g.AddVertex(s)`: keyed by `step.Hash s`; a second vertex under the
same key is rejected with `ErrVertexAlreadyExists` and the graph is
unchanged. -/
def Digraph.addVertex (g : Digraph) (s : step.Step) :
    Digraph × Option GraphErr :=
  let k := step.Hash s
  if g.hasVertex k then (g, some .vertexAlreadyExists)
  else ({ g with vertices := g.vertices ++ [(k, s)] }, none)

/-- Sources of the edges into `k` (`PredecessorMap()[k]`), in edge
insertion order. -/
def Digraph.predecessors (g : Digraph) (k : String) : List String :=
  (g.edges.filter (fun e => e.2 == k)).map Prod.fst

/-- Targets of the edges out of `k` (`AdjacencyMap()[k]`), in edge
insertion order. -/
def Digraph.successors (g : Digraph) (k : String) : List String :=
  (g.edges.filter (fun e => e.1 == k)).map Prod.snd

def Digraph.hasEdge (g : Digraph) (source target : String) : Bool :=
  g.edges.contains (source, target)

/-- One enqueue pass of the worklist search: append each neighbour not
yet marked visited to both the visited list and the queue. -/
def enqueueFresh (visited queue : List String) :
    List String → List String × List String
  | [] => (visited, queue)
  | n :: rest =>
      if visited.contains n then enqueueFresh visited queue rest
      else enqueueFresh (visited ++ [n]) (queue ++ [n]) rest

/-- Fuelled worklist traversal over an adjacency function, returning the
dequeue (visit) order.  With fuel at least the number of distinct
reachable keys the queue always drains. -/
def bfsAux (adj : String → List String) :
    Nat → List String → List String → List String → List String
  | 0, _, _, order => order
  | _ + 1, [], _, order => order
  | fuel + 1, k :: rest, visited, order =>
      let vq := enqueueFresh visited rest (adj k)
      bfsAux adj fuel vq.2 vq.1 (order ++ [k])

/-- `graph.BFS(g, start, visit)`'s visit order: breadth-first from
`start`, marking visited on enqueue.  (Go ranges over the adjacency
map in unspecified order; the embedding uses edge insertion order.) -/
def Digraph.bfsOrder (g : Digraph) (start : String) : List String :=
  bfsAux g.successors g.vertices.length [start] [start] []

/-- The set of keys reachable from `src` along edges (used by the
`PreventCycles` check).  Fuel `edges.length` bounds the number of
enqueued keys beyond `src`, since every reachable key other than `src`
is the target of some edge. -/
def Digraph.reachableFrom (g : Digraph) (src : String) : List String :=
  bfsAux g.successors (g.edges.length + 1) [src] [src] []

/-- `CreatesCycle(g, source, target)`: adding `source → target` closes a
cycle iff `target` already reaches `source` (a self-loop included). -/
def Digraph.createsCycle (g : Digraph) (source target : String) : Bool :=
  source == target || (g.reachableFrom target).contains source

/-- `g.AddEdge(source, target)` under `PreventCycles`: both endpoints
must exist, the edge must be new and must not close a cycle. -/
def Digraph.addEdge (g : Digraph) (source target : String) :
    Except GraphErr Digraph :=
  if ¬ g.hasVertex source then .error .vertexNotFound
  else if ¬ g.hasVertex target then .error .vertexNotFound
  else if g.hasEdge source target then .error .edgeAlreadyExists
  else if g.createsCycle source target then .error .edgeCreatesCycle
  else .ok { g with edges := g.edges ++ [(source, target)] }

end graph

/-! ## `graph.go`: the compiled graph -/

/-- `glide.Graph` from `graph.go`: the directed step graph plus the map
from vertex hash to compiled CEL program. -/
structure Graph where
  G : graph.Digraph
  programs : List (String × CelProgram)

/-- `glide.NewGraph`. -/
def NewGraph : Graph := ⟨graph.Digraph.empty, []⟩

/-! ## `compiler.go` (`part_000`) -/

/-- `glide.DefaultMaxDepth`. -/
def DefaultMaxDepth : Nat := 10

/-- `glide.Path` from `program.go` (its private `id` plus `Steps`). -/
structure Path where
  id : String
  steps : List step.Step

/-- `glide.Program` from `program.go`.  `Workflow` is a Go map from
pass name to `Path`; the embedding keeps insertion order (`Compile`
ranges over it in unspecified order, so this fixes one admissible
order). -/
structure Program where
  workflow : List (String × Path)

/-- `assertNode` from `part_000`: the statement must be a `Ref` of the
wanted node type. -/
def assertNode (s : step.Step) (wantType : node.NType) : Except noderr.GErr Unit :=
  match s.body with
  | .ref r =>
      if r.type ≠ wantType then
        .error (.plain ("statement must be a reference to a " ++ wantType.string ++ " node"))
      else .ok ()
  | _ =>
      .error (.plain ("statement must be a reference to a " ++ wantType.string
        ++ " node, but wasn't a reference"))

mutual

/-- `visitStatement` from `part_000`, translated clause by clause:
depth guard; position assignment (the parent's position, else the
step's own, extended by the index); `AddVertex` ignoring
`ErrVertexAlreadyExists`; the `child → parent` edge; the
`previous → current` edge when the step has no children; the body
switch (CEL compilation for `Check`, placement rules for `Ref`); then
the recursive child walk, each child error wrapped with
`noderr.Wrap(err, child.Node)`.  (The step is destructured up front so
the recursion into its children is structural.) -/
def visitStatement (env : CelEnv) (maxDepth numStatements : Nat)
    (g : Graph) (s : step.Step) (index depth : Nat)
    (parent previous : Option step.Step) :
    Except noderr.GErr (Graph × step.Step) :=
  match s with
  | .mk pos0 nm bd ch nd ps =>
    if depth > maxDepth then
      .error (.plain ("compiler max depth of " ++ toString maxDepth
        ++ " was exceeded (depth=" ++ toString depth ++ ")"))
    else
      let basePos := match parent with
        | some p => p.position
        | none => pos0
      let e : step.Step := .mk (basePos ++ [index]) nm bd ch nd ps
      let av := (g.G.addVertex e)
      -- it's okay if the vertex was already inserted on an earlier pass
      if av.2 ≠ none ∧ av.2 ≠ some .vertexAlreadyExists then
        .error (.plain "adding vertex")
      else
        let g := { g with G := av.1 }
        let key := step.Hash e
        -- if there is a parent, link the current node to it
        let afterParent : Except noderr.GErr Graph :=
          match parent with
          | some p =>
              match g.G.addEdge key (step.Hash p) with
              | .error err => .error (.plain err.msg)
              | .ok dg => .ok { g with G := dg }
          | none => .ok g
        match afterParent with
        | .error err => .error err
        | .ok g1 =>
          -- no children and a previous statement: link previous → current
          let afterPrev : Except noderr.GErr Graph :=
            match previous with
            | some prev =>
                if ch.isEmpty then
                  match g1.G.addEdge (step.Hash prev) key with
                  | .error err =>
                      .error (.plain ("adding edge to previous node " ++ key ++ ": " ++ err.msg))
                  | .ok dg => .ok { g1 with G := dg }
                else .ok g1
            | none => .ok g1
          match afterPrev with
          | .error err => .error err
          | .ok g2 =>
            -- node-specific compilation steps
            let afterBody : Except noderr.GErr Graph :=
              match bd with
              | .check expr =>
                  match env.compile expr with
                  | .error issues => .error (.plain ("CEL type-check error: " ++ issues))
                  | .ok ast =>
                      if ast.outputType ≠ .bool then
                        .error (.plain "CEL expression must return a boolean")
                      else
                        match ast.program with
                        | .error err => .error (.plain ("CEL program construction error: " ++ err))
                        | .ok prg => .ok { g2 with programs := mapInsert g2.programs key prg }
              | .ref r =>
                  if r.type = .unknown then
                    .error (.plain "invalid node: did not match any known start or end nodes")
                  else if r.type = .start ∧ index ≠ 0 then
                    .error (.plain "invalid node: start nodes can only be referenced at the beginning of a workflow (index)")
                  else if r.type = .start ∧ depth ≠ 0 then
                    .error (.plain "invalid node: start nodes can only be referenced at the beginning of a workflow (depth)")
                  else if r.type = .outcome ∧ index ≠ numStatements - 1 then
                    .error (.plain "invalid node: end nodes can only be referenced at the end of a workflow (index)")
                  else if r.type = .outcome ∧ depth ≠ 0 then
                    .error (.plain "invalid node: end nodes can only be referenced at the end of a workflow (depth)")
                  else .ok g2
              | _ => .ok g2
            match afterBody with
            | .error err => .error err
            | .ok g3 =>
                match visitChildren env maxDepth numStatements g3 ch 0 (depth + 1) e previous with
                | .error err => .error err
                | .ok g4 => .ok (g4, e)

/-- The `for i, child := range e.Children` loop of `visitStatement`. -/
def visitChildren (env : CelEnv) (maxDepth numStatements : Nat)
    (g : Graph) (children : List step.Step) (i depth : Nat)
    (parent : step.Step) (previous : Option step.Step) :
    Except noderr.GErr Graph :=
  match children with
  | [] => .ok g
  | child :: rest =>
      match visitStatement env maxDepth numStatements g child i depth (some parent) previous with
      | .error err => .error (noderr.Wrap err child.node)
      | .ok (g2, _) => visitChildren env maxDepth numStatements g2 rest (i + 1) depth parent previous

end

/-- The statement loop of `compilePass`: visit each root statement with
`Depth = 0`, no parent, and the previous (position-updated) statement;
errors are wrapped with the statement's source handle. -/
def compileLoop (env : CelEnv) (maxDepth numStatements : Nat)
    (g : Graph) : List step.Step → Nat → Option step.Step → Except noderr.GErr Graph
  | [], _, _ => .ok g
  | s :: rest, i, prev =>
      match visitStatement env maxDepth numStatements g s i 0 none prev with
      | .error err => .error (noderr.Wrap err s.node)
      | .ok (g2, e) => compileLoop env maxDepth numStatements g2 rest (i + 1) (some e)

/-- `compilePass` from `part_000`: at least two statements, the first a
`Start` ref and the last an `Outcome` ref, then the visitor walk. -/
def compilePass (env : CelEnv) (maxDepth : Nat) (g : Graph)
    (statements : List step.Step) : Except noderr.GErr Graph :=
  if statements.length < 2 then
    .error (.plain ("workflow must contain at least 2 statements: got "
      ++ toString statements.length ++ " statements"))
  else
    match statements with
    | [] => .error (.plain "workflow must contain at least 2 statements")
    | first :: rest =>
        match assertNode first .start with
        | .error err => .error err
        | .ok _ =>
            match assertNode ((first :: rest).getLast (by simp)) .outcome with
            | .error err => .error err
            | .ok _ => compileLoop env maxDepth statements.length g statements 0 none

/-- The pass loop of `Compile` (`for passID, pd := range c.Program.Workflow`). -/
def compileWorkflow (env : CelEnv) (maxDepth : Nat) :
    Graph → List (String × Path) → Except noderr.GErr Graph
  | g, [] => .ok g
  | g, (_, pd) :: rest =>
      match compilePass env maxDepth g pd.steps with
      | .error err => .error err
      | .ok g2 => compileWorkflow env maxDepth g2 rest

/-- `glide.Compiler` from `part_000`.  The CEL environment built from
`InputSchema` by `cel.NewEnv`/`jsoncel.NewProvider` is the external
expression library; `Compile` receives it as a parameter. -/
structure Compiler where
  program : Program
  maxDepth : Nat

/-- `(*Compiler).Compile` from `part_000`: default the max depth, then
compile every pass into one shared graph. -/
def Compiler.Compile (c : Compiler) (env : CelEnv) : Except noderr.GErr Graph :=
  let maxDepth := if c.maxDepth = 0 then DefaultMaxDepth else c.maxDepth
  compileWorkflow env maxDepth NewGraph c.program.workflow

/-! ## Step and program builders (`part_006`'s `s` package, `program.go`)

Used by the repository's tests to assemble programs; re-embedded here to
state the concrete scenarios. -/

namespace s

/-- `s.Start`: a reference to a Start node. -/
def sStart (id : String) : step.Step :=
  .mk [] "" (.ref { type := .start, id := id, name := "", priority := 0 }) [] none ""

/-- `s.Outcome`: a reference to an Outcome node (zero priority). -/
def sOutcome (id : String) : step.Step :=
  .mk [] "" (.ref { type := .outcome, id := id, name := "", priority := 0 }) [] none ""

/-- `s.Named(name).Priority(p).Outcome`: an Outcome reference with a priority. -/
def sOutcomeP (id : String) (priority : Int) : step.Step :=
  .mk [] "" (.ref { type := .outcome, id := id, name := "", priority := priority }) [] none ""

/-- `s.Check`. -/
def sCheck (expression : String) : step.Step :=
  .mk [] "" (.check expression) [] none ""

/-- `s.Boolean`. -/
def sBoolean (op : step.Operation) (children : List step.Step) : step.Step :=
  .mk [] "" (.boolean op) children none ""

/-- `s.Action`. -/
def sAction (name : String) (complete : Option (GoMap → Except String Bool)) : step.Step :=
  .mk [] "" (.action name complete) [] none ""

end s

mutual

/-- `setPass` from `program.go`: stamp a pass name on a step and all of
its children. -/
def setPass (s : step.Step) (pass : String) : step.Step :=
  match s with
  | .mk pos n b c nd _ => .mk pos n b (setPassList c pass) nd pass

/-- The child loop of `setPass`. -/
def setPassList (l : List step.Step) (pass : String) : List step.Step :=
  match l with
  | [] => []
  | s :: rest => setPass s pass :: setPassList rest pass

end

/-- `(*Program).Pass` from `program.go`: add a pass under the given name. -/
def Program.passAdd (p : Program) (name : String) (stmts : List step.Step) : Program :=
  { workflow := p.workflow ++ [(name, ⟨name, setPassList stmts name⟩)] }

/-- `glide.NewProgram`. -/
def NewProgram : Program := ⟨[]⟩

/-- `glide.SimpleProgram`: one pass named `default`. -/
def SimpleProgram (stmts : List step.Step) : Program :=
  NewProgram.passAdd "default" stmts

/-- A small CEL environment for the concrete scenarios: the literal
expressions `"true"` and `"false"` compile to boolean-typed programs
returning the corresponding constant; everything else fails to
compile.  (Stands in for google/cel-go, which is external.) -/
def litEnv : CelEnv :=
  { compile := fun expr =>
      if expr = "true" then
        .ok { outputType := .bool, program := .ok (fun _ => .ok (.boolVal true)) }
      else if expr = "false" then
        .ok { outputType := .bool, program := .ok (fun _ => .ok (.boolVal false)) }
      else
        .error ("undeclared reference to " ++ expr) }

/-! ## `execute.go`: the graph executor -/

/-- `glide.State` (iota order: `Inactive`, `Complete`, `Active`). -/
inductive State where
  | inactive
  | complete
  | active
deriving DecidableEq, Repr

/-- `glide.Result`: the completion graph, the per-vertex state map and
the outcome node id. -/
structure Result where
  cg : graph.Digraph
  state : List (String × State)
  outcome : String

mutual

/-- The `if child, ok := v.(map[string]any)` recursion of
`(*InputMap).build`: map values are descended into, everything else is
left as registered. -/
def imBuildVal (data : GoMap) (childKey : String) (v : GoVal) : GoMap :=
  match v with
  | .obj child => imBuild data childKey child
  | _ => data

/-- `(*InputMap).build` from `execute.go`: register every entry of the
input under `key + "." + k` and recurse into map values.  (Go iterates
the input map in unspecified order; the embedding keeps list order.) -/
def imBuild (data : GoMap) (key : String) (input : GoMap) : GoMap :=
  match input with
  | [] => data
  | (k, v) :: rest =>
      imBuild (imBuildVal (mapInsert data (key ++ "." ++ k) v) (key ++ "." ++ k) v) key rest

end

/-- `glide.NewInputMap`: the flattened (`'input.group.id'`-style)
evaluation environment for compiled CEL programs. -/
def NewInputMap (key : String) (data : GoMap) : GoMap :=
  imBuild [] key data

/-- The state the BFS visitor threads: the per-vertex state map, the
running outcome node, the completion graph, and the visit error (a set
error stops the traversal; the fold below makes later visits no-ops). -/
structure VisitAcc where
  state : List (String × State)
  outcome : node.Node
  cg : graph.Digraph
  verr : Option String

/-- The predecessor loop of the visitor: count predecessors whose
recorded state is `Complete` and add the corresponding edges to the
completion graph (an edge failure sets the visit error). -/
def countCompleted (state : List (String × State)) (k : String) :
    graph.Digraph → Nat → List String → graph.Digraph × Nat × Option String
  | cg, count, [] => (cg, count, none)
  | cg, count, p :: rest =>
      match mapGet state p with
      | some .complete =>
          match cg.addEdge p k with
          | .error err =>
              (cg, count + 1, some ("adding edge to complete graph: " ++ err.msg))
          | .ok cg2 => countCompleted state k cg2 (count + 1) rest
      | _ => countCompleted state k cg count rest

/-- Steps 1 of the visit (`state[k] = Inactive`, then `Complete` when
`k == start`), factored out of the callback so lemmas can name it. -/
def execInitState (st : List (String × State)) (start k : String) :
    List (String × State) :=
  let st0 := mapInsert st k .inactive
  if k == start then mapInsert st0 k .complete else st0

/-- The body of the `graph.BFS` callback in `Execute`, translated line
by line; returns the updated accumulator (with `verr` set when the Go
callback would have returned `true` to stop the traversal). -/
def execVisit (g : Graph) (start : String) (inputMap input : GoMap)
    (acc : VisitAcc) (k : String) : VisitAcc :=
  -- node is inactive by default; start nodes are complete by default
  let st1 := execInitState acc.state start k
  match g.G.vertex k with
  | none => { acc with state := st1, verr := some "vertex not found" }
  | some v =>
    let av := acc.cg.addVertex v
    match av.2 with
    | some err => { acc with state := st1, cg := av.1, verr := some err.msg }
    | none =>
      let cg1 := av.1
      let predecessors := g.G.predecessors k
      match countCompleted st1 k cg1 0 predecessors with
      | (cg2, _, some msg) =>
          { acc with state := st1, cg := cg2, verr := some msg }
      | (cg2, completedCount, none) =>
        match v.body with
        | .check _ =>
            if completedCount == 0 then
              -- no completed predecessor: the vertex cannot be complete
              { acc with state := st1, cg := cg2, verr := none }
            else
              match mapGet g.programs k with
              | none =>
                  { acc with
                    state := st1
                    cg := cg2
                    verr := some ("could not find CEL program for " ++ k) }
              | some prg =>
                  match prg inputMap with
                  | .error err => { acc with state := st1, cg := cg2, verr := some err }
                  | .ok (.otherVal rendered) =>
                      { acc with
                        state := st1
                        cg := cg2
                        verr := some ("could not convert CEL to bool: " ++ rendered) }
                  | .ok (.boolVal b) =>
                      { acc with
                        state := if b then mapInsert st1 k .complete else st1
                        cg := cg2
                        verr := none }
        | .boolean op =>
            let st2 := if op = .and ∧ completedCount == predecessors.length then
                mapInsert st1 k .complete
              else st1
            let st3 := if op = .or ∧ completedCount > 0 then
                mapInsert st2 k .complete
              else st2
            { acc with state := st3, cg := cg2, verr := none }
        | .action _ completeFn =>
            let st2 := if completedCount > 0 then mapInsert st1 k .active else st1
            match completeFn with
            | some f =>
                if completedCount > 0 then
                  match f input with
                  | .error err => { acc with state := st2, cg := cg2, verr := some err }
                  | .ok b =>
                      { acc with
                        state := if b then mapInsert st2 k .complete else st2
                        cg := cg2
                        verr := none }
                else { acc with state := st2, cg := cg2, verr := none }
            | none => { acc with state := st2, cg := cg2, verr := none }
        | .ref n =>
            let isComplete := completedCount > 0
            let isEndNode := n.type = .outcome
            let st2 := if completedCount > 0 then mapInsert st1 k .complete else st1
            let newOutcome :=
              if isComplete ∧ isEndNode ∧ acc.outcome.priority < n.priority then n
              else acc.outcome
            { state := st2, outcome := newOutcome, cg := cg2, verr := none }

/-- Fold the visitor over the BFS visit order; once `verr` is set the
remaining visits are skipped (Go stops the traversal). -/
def runVisits (g : Graph) (start : String) (inputMap input : GoMap)
    (order : List String) (acc : VisitAcc) : VisitAcc :=
  order.foldl
    (fun acc k => if acc.verr.isSome then acc else execVisit g start inputMap input acc k)
    acc

/-- `(*Graph).Execute` from `execute.go`: flatten the input, require the
start key to name a `Ref` vertex of type `Start`, run the BFS visitor,
and return the state map, completion graph and outcome id (the empty
string when no completed outcome was recorded). -/
def initAcc : VisitAcc :=
  { state := [], outcome := node.Node.zero, cg := graph.Digraph.empty, verr := none }

def Execute (g : Graph) (start : String) (input : GoMap) : Except String Result :=
  let inputMap := NewInputMap "input" input
  match g.G.vertex start with
  | none => .error "vertex not found"
  | some startVertex =>
    match startVertex.body with
    | .ref startNode =>
        if startNode.type ≠ .start then
          .error ("provided start " ++ start ++ " was not a start node")
        else
          let acc := runVisits g start inputMap input (g.G.bfsOrder start) initAcc
          match acc.verr with
          | some err => .error err
          | none => .ok { cg := acc.cg, state := acc.state, outcome := acc.outcome.id }
    | _ => .error ("provided start " ++ start ++ " was not a node reference")

/-! ## Well-formedness and reachability of compiled graphs -/

namespace graph

/-- The invariant `AddVertex`/`AddEdge` maintain: vertex keys are
unique and every edge endpoint is a vertex. -/
def Digraph.WF (g : Digraph) : Prop :=
  (g.vertices.map Prod.fst).Nodup ∧
    ∀ e ∈ g.edges, e.1 ∈ g.vertices.map Prod.fst ∧ e.2 ∈ g.vertices.map Prod.fst

instance (g : Digraph) : Decidable g.WF := by
  unfold Digraph.WF; infer_instance

/-- Reachability from `start` along directed edges. -/
inductive Digraph.Reach (g : Digraph) (start : String) : String → Prop where
  | refl : Digraph.Reach g start start
  | tail {u v : String} : Digraph.Reach g start u → (u, v) ∈ g.edges →
      Digraph.Reach g start v

end graph

/-! ## Concrete scenarios

Programs assembled with the embedded `s` builders (the same shapes the
repository's tests and the spec's §8 scenarios use), compiled with
`litEnv`. -/

/-- §8 S1: `default: [Start A, Check true, Outcome B(priority 1)]`. -/
def progLinear : Program :=
  SimpleProgram [s.sStart "A", s.sCheck "true", s.sOutcomeP "B" 1]

def compLinear : Compiler := { program := progLinear, maxDepth := 0 }

/-- An AND whose two checks are both true. -/
def progAnd : Program :=
  SimpleProgram [s.sStart "A",
    s.sBoolean .and [s.sCheck "true", s.sCheck "true"], s.sOutcomeP "B" 1]

def compAnd : Compiler := { program := progAnd, maxDepth := 0 }

/-- A Boolean nested inside a Boolean:
`[Start A, And[Check true, Or[Check true, Check false]], Outcome D]`. -/
def progNested : Program :=
  SimpleProgram [s.sStart "A",
    s.sBoolean .and [s.sCheck "true", s.sBoolean .or [s.sCheck "true", s.sCheck "false"]],
    s.sOutcomeP "D" 1]

def compNested : Compiler := { program := progNested, maxDepth := 0 }

/-- §8 S6: two passes sharing start id `A` and outcome id `B`. -/
def progTwoPass : Program :=
  (NewProgram.passAdd "first" [s.sStart "A", s.sCheck "true", s.sOutcomeP "B" 1]).passAdd
    "second" [s.sStart "A", s.sCheck "false", s.sOutcomeP "B" 1]

def compTwoPass : Compiler := { program := progTwoPass, maxDepth := 0 }

/-- A pass whose outcome node carries the (unvalidated) zero priority,
as the `s.Outcome` builder produces it. -/
def progZeroPriority : Program :=
  SimpleProgram [s.sStart "A", s.sCheck "true", s.sOutcome "B"]

def compZeroPriority : Compiler := { program := progZeroPriority, maxDepth := 0 }

/-- A dialect declaring `x` as a Start node (for the kind-mismatch
scenario of `parseNodeRef`). -/
def dialectStartX : dialect.Dialect :=
  ⟨[("x", { type := .start, id := "", name := "Request", priority := 0 })]⟩

/-- An unparsed step (placeholder body) as `UnmarshalYAML` holds it
when `parseNodeRef` is called. -/
def stepBeforeParse : step.Step := .mk [] "" (.check "placeholder") [] (some 7) "default"

/-- A schema exercising every `FindType` case. -/
def schemaAllTypes : jsoncel.Schema := .mk .tnone [
  ("group", .mk .object [("id", .mk .string [] false)] false),
  ("tags", .mk .object [] true),
  ("name", .mk .string [] false),
  ("count", .mk .integer [] false),
  ("amount", .mk .number [] false),
  ("flag", .mk .boolean [] false),
  ("items", .mk .array [] false),
  ("nothing", .mk .null [] false)] false

def providerAllTypes : jsoncel.Provider :=
  jsoncel.NewProvider "input" (some schemaAllTypes) (fun _ => none)

/-! ## Executed scenarios

The scenario programs compiled and run, bound to names so concrete
witnesses can state facts about the exact graphs and results. -/

/-- A fallback result (never reached: every extraction below succeeds). -/
def emptyResult : Result := { cg := graph.Digraph.empty, state := [], outcome := "" }

def gLinear : Graph := (compLinear.Compile litEnv).toOption.getD NewGraph

def resLinear : Result := (Execute gLinear "A" []).toOption.getD emptyResult

def gAnd : Graph := (compAnd.Compile litEnv).toOption.getD NewGraph

def resAnd : Result := (Execute gAnd "A" []).toOption.getD emptyResult

/-- The stored And vertex of `gAnd`. -/
def vAnd : step.Step := (gAnd.G.vertex "default.1").getD (s.sCheck "x")

def gNested : Graph := (compNested.Compile litEnv).toOption.getD NewGraph

def resNested : Result := (Execute gNested "A" []).toOption.getD emptyResult

def gZero : Graph := (compZeroPriority.Compile litEnv).toOption.getD NewGraph

def resZero : Result := (Execute gZero "A" []).toOption.getD emptyResult


/-! ## Properties of the worklist traversal -/

namespace graph

theorem mem_successors {g : Digraph} {u v : String} :
    v ∈ g.successors u ↔ (u, v) ∈ g.edges := by
  unfold Digraph.successors
  constructor
  · intro h
    obtain ⟨e, he, rfl⟩ := List.mem_map.1 h
    obtain ⟨he1, he2⟩ := List.mem_filter.1 he
    have h1 : e.1 = u := by simpa using he2
    obtain ⟨a, b⟩ := e
    simpa [h1.symm] using he1
  · intro h
    exact List.mem_map.2 ⟨(u, v), List.mem_filter.2 ⟨h, by simp⟩, rfl⟩

theorem mem_predecessors {g : Digraph} {u v : String} :
    u ∈ g.predecessors v ↔ (u, v) ∈ g.edges := by
  unfold Digraph.predecessors
  constructor
  · intro h
    obtain ⟨e, he, rfl⟩ := List.mem_map.1 h
    obtain ⟨he1, he2⟩ := List.mem_filter.1 he
    have h2 : e.2 = v := by simpa using he2
    obtain ⟨a, b⟩ := e
    simpa [h2.symm] using he1
  · intro h
    exact List.mem_map.2 ⟨(u, v), List.mem_filter.2 ⟨h, by simp⟩, rfl⟩

/-- What one enqueue pass does: it appends one common block `fresh` of
previously-unvisited neighbours to both the visited list and the queue. -/
theorem enqueueFresh_spec :
    ∀ (ns visited queue : List String),
      ∃ fresh,
        (enqueueFresh visited queue ns).1 = visited ++ fresh ∧
        (enqueueFresh visited queue ns).2 = queue ++ fresh ∧
        (∀ x ∈ fresh, x ∈ ns ∧ x ∉ visited) ∧
        (∀ x ∈ ns, x ∈ visited ++ fresh) ∧
        (visited.Nodup → (visited ++ fresh).Nodup) := by
  intro ns
  induction ns with
  | nil =>
      intro visited queue
      exact ⟨[], by simp [enqueueFresh], by simp [enqueueFresh], by simp, by simp,
        by simp⟩
  | cons n rest ih =>
      intro visited queue
      by_cases hn : n ∈ visited
      · obtain ⟨fresh, h1, h2, h3, h4, h5⟩ := ih visited queue
        refine ⟨fresh, by simpa [enqueueFresh, hn] using h1,
          by simpa [enqueueFresh, hn] using h2,
          fun x hx => ⟨List.mem_cons_of_mem _ (h3 x hx).1, (h3 x hx).2⟩, ?_, h5⟩
        intro x hx
        rcases List.mem_cons.1 hx with rfl | hx
        · exact List.mem_append.2 (Or.inl hn)
        · exact h4 x hx
      · obtain ⟨fresh, h1, h2, h3, h4, h5⟩ := ih (visited ++ [n]) (queue ++ [n])
        refine ⟨n :: fresh, ?_, ?_, ?_, ?_, ?_⟩
        · simpa [enqueueFresh, hn, List.append_assoc] using h1
        · simpa [enqueueFresh, hn, List.append_assoc] using h2
        · intro x hx
          rcases List.mem_cons.1 hx with rfl | hx
          · exact ⟨List.mem_cons_self _ _, hn⟩
          · obtain ⟨hx1, hx2⟩ := h3 x hx
            exact ⟨List.mem_cons_of_mem _ hx1,
              fun hmem => hx2 (List.mem_append.2 (Or.inl hmem))⟩
        · intro x hx
          rcases List.mem_cons.1 hx with rfl | hx
          · simp
          · have := h4 x hx
            simpa [List.append_assoc] using this
        · intro hvn
          have : (visited ++ [n]).Nodup := by
            simp [List.nodup_append, hvn, hn]
          have := h5 this
          simpa [List.append_assoc] using this

/-- Every entry of a visit order other than `start` has a parent that
was visited strictly earlier and has an edge to it. -/
@[reducible] def OrderedFrom (adj : String → List String) (start : String)
    (l : List String) : Prop :=
  ∀ (i : Nat) (v : String), l[i]? = some v →
    v = start ∨ ∃ (j : Nat) (p : String), j < i ∧ l[j]? = some p ∧ v ∈ adj p

/-- The worklist traversal only ever extends the order, keeps it
duplicate-free, and visits a vertex only after a BFS parent. -/
theorem bfsAux_ordered (adj : String → List String) (start : String) :
    ∀ (fuel : Nat) (queue visited order : List String),
      visited = order ++ queue →
      visited.Nodup →
      (∀ v ∈ queue, v = start ∨ ∃ p ∈ order, v ∈ adj p) →
      OrderedFrom adj start order →
      (∃ suffix, bfsAux adj fuel queue visited order = order ++ suffix)
        ∧ (bfsAux adj fuel queue visited order).Nodup
        ∧ OrderedFrom adj start (bfsAux adj fuel queue visited order) := by
  intro fuel
  induction fuel with
  | zero =>
      intro queue visited order hvq hnd _ hord
      exact ⟨⟨[], by simp [bfsAux]⟩, by simpa [bfsAux] using (hvq ▸ hnd).of_append_left,
        by simpa [bfsAux] using hord⟩
  | succ fuel ih =>
      intro queue visited order hvq hnd hqp hord
      match queue with
      | [] =>
          exact ⟨⟨[], by simp [bfsAux]⟩, by simpa [bfsAux] using (hvq ▸ hnd).of_append_left,
            by simpa [bfsAux] using hord⟩
      | k :: rest =>
          obtain ⟨fresh, h1, h2, h3, h4, h5⟩ := enqueueFresh_spec (adj k) visited rest
          have hstep : bfsAux adj (fuel + 1) (k :: rest) visited order
              = bfsAux adj fuel (rest ++ fresh) (visited ++ fresh) (order ++ [k]) := by
            simp [bfsAux, h1, h2]
          have hvq' : visited ++ fresh = (order ++ [k]) ++ (rest ++ fresh) := by
            simp [hvq, List.append_assoc]
          have hnd' : (visited ++ fresh).Nodup := h5 hnd
          have hqp' : ∀ v ∈ rest ++ fresh, v = start ∨ ∃ p ∈ order ++ [k], v ∈ adj p := by
            intro v hv
            rcases List.mem_append.1 hv with hv | hv
            · rcases hqp v (List.mem_cons_of_mem _ hv) with h | ⟨p, hp, hpv⟩
              · exact Or.inl h
              · exact Or.inr ⟨p, List.mem_append.2 (Or.inl hp), hpv⟩
            · obtain ⟨hv1, _⟩ := h3 v hv
              exact Or.inr ⟨k, List.mem_append.2 (Or.inr (by simp)), hv1⟩
          have hord' : OrderedFrom adj start (order ++ [k]) := by
            intro i v hv
            by_cases hi : i < order.length
            · rw [List.getElem?_append_left hi] at hv
              rcases hord i v hv with h | ⟨j, p, hj, hp, hpv⟩
              · exact Or.inl h
              · exact Or.inr ⟨j, p, hj, by rw [List.getElem?_append_left (lt_trans hj hi)]; exact hp, hpv⟩
            · have hlen : i < order.length + 1 := by
                by_contra hc
                have : (order ++ [k])[i]? = none := by
                  have hle : (order ++ [k]).length ≤ i := by simp; omega
                  exact List.getElem?_eq_none hle
                simp [this] at hv
              have hi' : i = order.length := by omega
              have hvk : v = k := by
                subst hi'
                have : (order ++ [k])[order.length]? = some k := by
                  simp
                rw [this] at hv
                exact (Option.some_inj.1 hv).symm
              subst hvk
              rcases hqp v (by simp) with h | ⟨p, hp, hpv⟩
              · exact Or.inl h
              · obtain ⟨j, hj, hpj⟩ := List.mem_iff_getElem.1 hp
                exact Or.inr ⟨j, p, by omega,
                  by rw [List.getElem?_append_left hj, List.getElem?_eq_getElem hj, hpj], hpv⟩
          obtain ⟨⟨suffix, hsfx⟩, hnd'', hord''⟩ :=
            ih (rest ++ fresh) (visited ++ fresh) (order ++ [k]) hvq' hnd' hqp' hord'
          rw [hstep]
          exact ⟨⟨k :: suffix, by simpa [List.append_assoc] using hsfx⟩, hnd'', hord''⟩

/-- Everything the traversal visits satisfies any property that holds
on the initial visited list and is closed under adjacency. -/
theorem bfsAux_sound (adj : String → List String) (R : String → Prop)
    (hR : ∀ u, R u → ∀ v ∈ adj u, R v) :
    ∀ (fuel : Nat) (queue visited order : List String),
      visited = order ++ queue →
      (∀ v ∈ visited, R v) →
      ∀ v ∈ bfsAux adj fuel queue visited order, R v := by
  intro fuel
  induction fuel with
  | zero =>
      intro queue visited order hvq hvis v hv
      exact hvis v (hvq ▸ List.mem_append.2 (Or.inl (by simpa [bfsAux] using hv)))
  | succ fuel ih =>
      intro queue visited order hvq hvis v hv
      match queue with
      | [] =>
          exact hvis v (hvq ▸ List.mem_append.2 (Or.inl (by simpa [bfsAux] using hv)))
      | k :: rest =>
          obtain ⟨fresh, h1, h2, h3, _, _⟩ := enqueueFresh_spec (adj k) visited rest
          have hstep : bfsAux adj (fuel + 1) (k :: rest) visited order
              = bfsAux adj fuel (rest ++ fresh) (visited ++ fresh) (order ++ [k]) := by
            simp [bfsAux, h1, h2]
          have hvq' : visited ++ fresh = (order ++ [k]) ++ (rest ++ fresh) := by
            simp [hvq, List.append_assoc]
          have hk : R k := hvis k (hvq ▸ List.mem_append.2 (Or.inr (by simp)))
          have hvis' : ∀ x ∈ visited ++ fresh, R x := by
            intro x hx
            rcases List.mem_append.1 hx with hx | hx
            · exact hvis x hx
            · exact hR k hk x (h3 x hx).1
          rw [hstep] at hv
          exact ih (rest ++ fresh) (visited ++ fresh) (order ++ [k]) hvq' hvis' v hv

/-- With enough fuel the traversal visits everything already marked
visited, and the visited order is closed under adjacency. -/
theorem bfsAux_complete (adj : String → List String) (keys : List String)
    (hkeys : keys.Nodup) (hadj : ∀ u, ∀ v ∈ adj u, v ∈ keys) :
    ∀ (fuel : Nat) (queue visited order : List String),
      visited = order ++ queue →
      visited.Nodup →
      (∀ v ∈ visited, v ∈ keys) →
      (∀ u ∈ order, ∀ v ∈ adj u, v ∈ visited) →
      keys.length ≤ fuel + order.length →
      (∀ v ∈ visited, v ∈ bfsAux adj fuel queue visited order)
        ∧ (∀ u ∈ bfsAux adj fuel queue visited order, ∀ v ∈ adj u,
            v ∈ bfsAux adj fuel queue visited order) := by
  intro fuel
  induction fuel with
  | zero =>
      intro queue visited order hvq hnd hvk hcl hfuel
      -- fuel is exhausted: the order already contains every key
      have hord : order.Nodup := (hvq ▸ hnd).of_append_left
      have hsub : order ⊆ keys := fun x hx =>
        hvk x (hvq ▸ List.mem_append.2 (Or.inl hx))
      have hkeysub : ∀ x ∈ keys, x ∈ order := by
        intro x hx
        have hfin : order.toFinset = keys.toFinset := by
          apply Finset.eq_of_subset_of_card_le
          · intro a ha
            exact List.mem_toFinset.2 (hsub (List.mem_toFinset.1 ha))
          · rw [List.toFinset_card_of_nodup hkeys, List.toFinset_card_of_nodup hord]
            simpa using hfuel
        have := hfin ▸ List.mem_toFinset.2 hx
        exact List.mem_toFinset.1 this
      constructor
      · intro v hv
        simpa [bfsAux] using hkeysub v (hvk v hv)
      · intro u hu v hv
        simpa [bfsAux] using hkeysub v (hadj u v hv)
  | succ fuel ih =>
      intro queue visited order hvq hnd hvk hcl hfuel
      match queue with
      | [] =>
          have hvo : visited = order := by simpa using hvq
          subst hvo
          constructor
          · intro v hv; simpa [bfsAux] using hv
          · intro u hu v hv
            simpa [bfsAux] using hcl u (by simpa [bfsAux] using hu) v hv
      | k :: rest =>
          obtain ⟨fresh, h1, h2, h3, h4, h5⟩ := enqueueFresh_spec (adj k) visited rest
          have hstep : bfsAux adj (fuel + 1) (k :: rest) visited order
              = bfsAux adj fuel (rest ++ fresh) (visited ++ fresh) (order ++ [k]) := by
            simp [bfsAux, h1, h2]
          have hvq' : visited ++ fresh = (order ++ [k]) ++ (rest ++ fresh) := by
            simp [hvq, List.append_assoc]
          have hnd' : (visited ++ fresh).Nodup := h5 hnd
          have hvk' : ∀ v ∈ visited ++ fresh, v ∈ keys := by
            intro v hv
            rcases List.mem_append.1 hv with hv | hv
            · exact hvk v hv
            · exact hadj k v (h3 v hv).1
          have hcl' : ∀ u ∈ order ++ [k], ∀ v ∈ adj u, v ∈ visited ++ fresh := by
            intro u hu v hv
            rcases List.mem_append.1 hu with hu | hu
            · exact List.mem_append.2 (Or.inl (hcl u hu v hv))
            · have : u = k := by simpa using hu
              subst this
              exact h4 v hv
          have hfuel' : keys.length ≤ fuel + (order ++ [k]).length := by
            simp only [List.length_append, List.length_cons, List.length_nil]
            omega
          obtain ⟨hcov, hclo⟩ :=
            ih (rest ++ fresh) (visited ++ fresh) (order ++ [k]) hvq' hnd' hvk' hcl' hfuel'
          rw [hstep]
          exact ⟨fun v hv => hcov v (List.mem_append.2 (Or.inl hv)), hclo⟩

/-- The BFS visit order is duplicate-free. -/
theorem bfsOrder_nodup (g : Digraph) (start : String) :
    (g.bfsOrder start).Nodup :=
  (bfsAux_ordered g.successors start g.vertices.length [start] [start] []
    rfl (by simp) (fun v hv => Or.inl (by simpa using hv)) (by intro i v hv; simp at hv)).2.1

/-- Every visited vertex other than `start` comes strictly after one of
its BFS parents in the visit order. -/
theorem bfsOrder_ordered (g : Digraph) (start : String) :
    OrderedFrom g.successors start (g.bfsOrder start) :=
  (bfsAux_ordered g.successors start g.vertices.length [start] [start] []
    rfl (by simp) (fun v hv => Or.inl (by simpa using hv)) (by intro i v hv; simp at hv)).2.2

/-- BFS only visits vertices reachable from `start`. -/
theorem bfsOrder_sound (g : Digraph) (start : String) :
    ∀ v ∈ g.bfsOrder start, g.Reach start v := by
  apply bfsAux_sound g.successors (g.Reach start)
      (fun u hu v hv => hu.tail (mem_successors.1 hv)) g.vertices.length [start] [start] []
      rfl
  intro v hv
  have : v = start := by simpa using hv
  subst this
  exact .refl

/-- On a well-formed graph whose start key is a vertex, BFS visits
every reachable vertex. -/
theorem bfsOrder_complete (g : Digraph) (start : String) (hwf : g.WF)
    (hs : start ∈ g.vertices.map Prod.fst) :
    ∀ v, g.Reach start v → v ∈ g.bfsOrder start := by
  have hvk0 : ∀ v ∈ [start], v ∈ g.vertices.map Prod.fst := by
    intro v hv
    have hv1 : v = start := by simpa using hv
    exact hv1.symm ▸ hs
  have hcl0 : ∀ u ∈ ([] : List String), ∀ v ∈ g.successors u, v ∈ [start] := by
    intro u hu
    simp at hu
  obtain ⟨hcov, hclo⟩ := bfsAux_complete g.successors (g.vertices.map Prod.fst) hwf.1
    (fun u v hv => (hwf.2 _ (mem_successors.1 hv)).2)
    g.vertices.length [start] [start] [] rfl (by simp) hvk0 hcl0 (by simp)
  intro v hv
  induction hv with
  | refl => exact hcov start (by simp)
  | tail hu he ihv => exact hclo _ ihv _ (mem_successors.2 he)

/-- Every visited vertex other than `start` has a predecessor in the
graph that is visited strictly earlier. -/
theorem bfsOrder_pred_earlier (g : Digraph) (start v : String)
    (hv : v ∈ g.bfsOrder start) (hvs : v ≠ start) :
    ∃ p, p ∈ g.predecessors v ∧
      (g.bfsOrder start).indexOf p < (g.bfsOrder start).indexOf v := by
  obtain ⟨i, hi, hiv⟩ := List.mem_iff_getElem.1 hv
  rcases bfsOrder_ordered g start i v (by simp [List.getElem?_eq_getElem hi, hiv]) with h | h
  · exact absurd h hvs
  · obtain ⟨j, p, hj, hp, hpv⟩ := h
    have hjlen : j < (g.bfsOrder start).length := by
      by_contra hc
      rw [List.getElem?_eq_none (by omega)] at hp
      simp at hp
    have hpj : (g.bfsOrder start)[j] = p := by
      have := List.getElem?_eq_getElem hjlen
      rw [this] at hp
      exact Option.some_inj.1 hp
    have hnd := bfsOrder_nodup g start
    have hidxv : (g.bfsOrder start).indexOf v = i := by
      rw [← hiv]
      exact List.indexOf_getElem hnd i hi
    have hidxp : (g.bfsOrder start).indexOf p = j := by
      rw [← hpj]
      exact List.indexOf_getElem hnd j hjlen
    refine ⟨p, ?_, by omega⟩
    exact mem_predecessors.2 (mem_successors.1 hpv)

/-- Every visited vertex other than `start` has at least one
predecessor in the graph. -/
theorem bfsOrder_pred_exists (g : Digraph) (start v : String)
    (hv : v ∈ g.bfsOrder start) (hvs : v ≠ start) :
    g.predecessors v ≠ [] := by
  obtain ⟨p, hp, _⟩ := bfsOrder_pred_earlier g start v hv hvs
  intro hc
  rw [hc] at hp
  exact absurd hp (List.not_mem_nil p)

end graph

/-! ## Properties of the Go-map embedding -/

theorem mapGet_nil {α : Type} (k : String) : mapGet ([] : List (String × α)) k = none := rfl

theorem mapGet_cons {α : Type} (a : String) (b : α) (rest : List (String × α)) (k : String) :
    mapGet ((a, b) :: rest) k = if a = k then some b else mapGet rest k := by
  by_cases h : a = k <;> simp [mapGet, List.find?_cons, h]

/-- Updating a key that is absent from the map leaves other lookups alone
and installs the new binding. -/
theorem mapGet_append_single {α : Type} (m : List (String × α)) (k k' : String) (v : α) :
    mapGet (m ++ [(k, v)]) k' = if k' = k then (mapGet m k').orElse (fun _ => some v)
      else mapGet m k' := by
  induction m with
  | nil =>
      by_cases h : k' = k
      · simp [h, mapGet_cons, mapGet_nil]
      · have h2 : ¬ k = k' := fun hc => h hc.symm
        simp [h, h2, mapGet_cons, mapGet_nil]
  | cons a rest ih =>
      obtain ⟨a1, a2⟩ := a
      rw [List.cons_append, mapGet_cons, mapGet_cons]
      by_cases ha : a1 = k'
      · rw [if_pos ha, if_pos ha]
        by_cases h : k' = k
        · rw [if_pos h]; rfl
        · rw [if_neg h]
      · rw [if_neg ha, if_neg ha, ih]

/-- Re-binding an existing key only changes that key's lookup. -/
theorem mapGet_map_rebind_ne {α : Type} (m : List (String × α)) (k k' : String) (v : α)
    (h : k' ≠ k) :
    mapGet (m.map (fun kv => if kv.1 == k then (k, v) else kv)) k' = mapGet m k' := by
  have hk : ¬ k = k' := fun hc => h hc.symm
  induction m with
  | nil => simp [mapGet_nil]
  | cons a rest ih =>
      obtain ⟨a1, a2⟩ := a
      by_cases ha : a1 = k
      · have hak : ¬ a1 = k' := by rw [ha]; exact hk
        have hmap : ((a1, a2) :: rest).map (fun kv => if kv.1 == k then (k, v) else kv)
            = (k, v) :: rest.map (fun kv => if kv.1 == k then (k, v) else kv) := by
          rw [List.map_cons]
          congr 1
          simp [ha]
        rw [hmap, mapGet_cons, mapGet_cons, if_neg hk, if_neg hak, ih]
      · have hmap : ((a1, a2) :: rest).map (fun kv => if kv.1 == k then (k, v) else kv)
            = (a1, a2) :: rest.map (fun kv => if kv.1 == k then (k, v) else kv) := by
          rw [List.map_cons]
          congr 1
          simp [ha]
        rw [hmap, mapGet_cons, mapGet_cons]
        by_cases hk' : a1 = k'
        · rw [if_pos hk', if_pos hk']
        · rw [if_neg hk', if_neg hk', ih]

/-- Re-binding an existing key is visible at that key. -/
theorem mapGet_map_rebind_self {α : Type} (m : List (String × α)) (k : String) (v : α)
    (hmem : (List.find? (fun kv => kv.1 == k) m).isSome) :
    mapGet (m.map (fun kv => if kv.1 == k then (k, v) else kv)) k = some v := by
  revert hmem
  induction m with
  | nil => intro hmem; simp [List.find?] at hmem
  | cons a rest ih =>
      intro hmem
      obtain ⟨a1, a2⟩ := a
      by_cases ha : a1 = k
      · have hmap : ((a1, a2) :: rest).map (fun kv => if kv.1 == k then (k, v) else kv)
            = (k, v) :: rest.map (fun kv => if kv.1 == k then (k, v) else kv) := by
          rw [List.map_cons]
          congr 1
          simp [ha]
        rw [hmap, mapGet_cons, if_pos rfl]
      · have hmem2 : (List.find? (fun kv => kv.1 == k) rest).isSome := by
          simpa [List.find?_cons, ha] using hmem
        have hmap : ((a1, a2) :: rest).map (fun kv => if kv.1 == k then (k, v) else kv)
            = (a1, a2) :: rest.map (fun kv => if kv.1 == k then (k, v) else kv) := by
          rw [List.map_cons]
          congr 1
          simp [ha]
        rw [hmap, mapGet_cons, if_neg ha]
        exact ih hmem2

/-- The Go-map read/write law: a write is visible at its own key and at
no other. -/
theorem mapGet_mapInsert {α : Type} (m : List (String × α)) (k k' : String) (v : α) :
    mapGet (mapInsert m k v) k' = if k' = k then some v else mapGet m k' := by
  unfold mapInsert
  by_cases hmem : (List.find? (fun kv => kv.1 == k) m).isSome
  · rw [if_pos hmem]
    by_cases h : k' = k
    · subst h
      rw [if_pos rfl]
      exact mapGet_map_rebind_self m k' v hmem
    · rw [if_neg h]
      exact mapGet_map_rebind_ne m k k' v h
  · rw [if_neg hmem, mapGet_append_single]
    by_cases h : k' = k
    · subst h
      have hnone : mapGet m k' = none := by
        unfold mapGet
        rcases hfind : List.find? (fun kv => kv.1 == k') m with _ | e
        · rw [hfind]; rfl
        · exact absurd (by simp [hfind]) hmem
      rw [if_pos rfl, if_pos rfl, hnone]
      rfl
    · rw [if_neg h, if_neg h]


/-! ## Properties of the executor fold -/


theorem execInitState_get_self (st : List (String × State)) (start k : String) :
    mapGet (execInitState st start k) k
      = some (if k = start then State.complete else State.inactive) := by
  unfold execInitState
  by_cases h : k = start
  · subst h; simp [mapGet_mapInsert]
  · simp [h, mapGet_mapInsert]

theorem execInitState_get_ne (st : List (String × State)) (start k k' : String)
    (h : k' ≠ k) :
    mapGet (execInitState st start k) k' = mapGet st k' := by
  unfold execInitState
  by_cases hs : k = start
  · subst hs; simp [mapGet_mapInsert, h]
  · simp [hs, mapGet_mapInsert, h]

theorem execVisit_state_ne (g : Graph) (start : String) (im inp : GoMap)
    (acc : VisitAcc) (k k' : String) (h : k' ≠ k) :
    mapGet (execVisit g start im inp acc k).state k' = mapGet acc.state k' := by
  have hinit := execInitState_get_ne acc.state start k k' h
  unfold execVisit
  rcases hv : g.G.vertex k with _ | v
  · simp only [hv]
    exact hinit
  · simp only [hv]
    rcases hav : (acc.cg.addVertex v).2 with _ | err
    · simp only [hav]
      rcases hcc : countCompleted (execInitState acc.state start k) k
          (acc.cg.addVertex v).1 0 (g.G.predecessors k) with ⟨cg2, cnt, _ | msg⟩
      · simp only [hcc]
        rcases hb : v.body with expr | op | n | ⟨nm, cf⟩
        all_goals repeat' split
        all_goals simp_all [mapGet_mapInsert]
      · simp only [hcc]
        exact hinit
    · simp only [hav]
      exact hinit

theorem execVisit_isSome_self (g : Graph) (start : String) (im inp : GoMap)
    (acc : VisitAcc) (k : String) :
    (mapGet (execVisit g start im inp acc k).state k).isSome := by
  have hinit := execInitState_get_self acc.state start k
  unfold execVisit
  rcases hv : g.G.vertex k with _ | v
  · simp only [hv]
    simp [hinit]
  · simp only [hv]
    rcases hav : (acc.cg.addVertex v).2 with _ | err
    · simp only [hav]
      rcases hcc : countCompleted (execInitState acc.state start k) k
          (acc.cg.addVertex v).1 0 (g.G.predecessors k) with ⟨cg2, cnt, _ | msg⟩
      · simp only [hcc]
        rcases hb : v.body with expr | op | n | ⟨nm, cf⟩
        all_goals repeat' split
        all_goals simp_all [mapGet_mapInsert]
      · simp only [hcc]
        simp [hinit]
    · simp only [hav]
      simp [hinit]

theorem execVisit_some_vertex (g : Graph) (start : String) (im inp : GoMap)
    (acc : VisitAcc) (k : String)
    (hverr : (execVisit g start im inp acc k).verr = none) :
    ∃ v, g.G.vertex k = some v := by
  rcases h : g.G.vertex k with _ | v
  · unfold execVisit at hverr
    simp only [h] at hverr
    exact absurd hverr (by simp)
  · exact ⟨v, rfl⟩

theorem countCompleted_spec (st : List (String × State)) (k : String) :
    ∀ (preds : List String) (cg cg2 : graph.Digraph) (cnt cnt2 : Nat),
      countCompleted st k cg cnt preds = (cg2, cnt2, none) →
      cnt2 = cnt + preds.countP (fun p => mapGet st p == some State.complete) := by
  intro preds
  induction preds with
  | nil =>
      intro cg cg2 cnt cnt2 h
      unfold countCompleted at h
      simp at h
      obtain ⟨h1, h2⟩ := h
      simp [List.countP_nil]
      omega
  | cons p rest ih =>
      intro cg cg2 cnt cnt2 h
      unfold countCompleted at h
      rcases hp : mapGet st p with _ | stp
      · rw [hp] at h
        rw [List.countP_cons]
        have := ih cg cg2 cnt cnt2 h
        simp [hp, this]
      · rw [hp] at h
        rcases stp with _ | _ | _
        · rw [List.countP_cons]
          have := ih cg cg2 cnt cnt2 h
          simp [hp, this]
        · rcases hae : cg.addEdge p k with err | cg3
          · rw [hae] at h
            simp at h
          · rw [hae] at h
            have := ih cg3 cg2 (cnt + 1) cnt2 h
            rw [List.countP_cons]
            simp [hp, this]
            omega
        · rw [List.countP_cons]
          have := ih cg cg2 cnt cnt2 h
          simp [hp, this]



theorem execVisit_boolean (g : Graph) (start : String) (im inp : GoMap)
    (acc : VisitAcc) (k : String) (v : step.Step) (op : step.Operation)
    (hv : g.G.vertex k = some v) (hb : v.body = .boolean op)
    (hverr : (execVisit g start im inp acc k).verr = none) (hks : k ≠ start) :
    mapGet (execVisit g start im inp acc k).state k
      = some (if (op = .and ∧ (g.G.predecessors k).countP
            (fun p => mapGet (execInitState acc.state start k) p == some State.complete)
            = (g.G.predecessors k).length)
          ∨ (op = .or ∧ 0 < (g.G.predecessors k).countP
            (fun p => mapGet (execInitState acc.state start k) p == some State.complete))
        then State.complete else State.inactive) := by
  unfold execVisit at hverr ⊢
  simp only [hv] at hverr ⊢
  rcases hav : (acc.cg.addVertex v).2 with _ | err
  · simp only [hav] at hverr ⊢
    rcases hcc : countCompleted (execInitState acc.state start k) k
        (acc.cg.addVertex v).1 0 (g.G.predecessors k) with ⟨cg2, cnt, _ | msg⟩
    · simp only [hcc] at hverr ⊢
      have hcnt := countCompleted_spec (execInitState acc.state start k) k
        (g.G.predecessors k) (acc.cg.addVertex v).1 cg2 0 cnt hcc
      simp only [Nat.zero_add] at hcnt
      simp only [hb]
      rw [← hcnt]
      rcases op with _ | _
      · by_cases hc : cnt = (g.G.predecessors k).length
        · simp [hc, mapGet_mapInsert]
        · simp [hc, execInitState_get_self, hks]
      · by_cases hc : 0 < cnt
        · simp [hc, mapGet_mapInsert]
        · simp [hc, execInitState_get_self, hks]
    · simp only [hcc] at hverr
      exact absurd hverr (by simp)
  · simp only [hav] at hverr
    exact absurd hverr (by simp)

theorem execVisit_ref (g : Graph) (start : String) (im inp : GoMap)
    (acc : VisitAcc) (k : String) (v : step.Step) (n : node.Node)
    (hv : g.G.vertex k = some v) (hb : v.body = .ref n)
    (hverr : (execVisit g start im inp acc k).verr = none) :
    (mapGet (execVisit g start im inp acc k).state k
      = some (if 0 < (g.G.predecessors k).countP
            (fun p => mapGet (execInitState acc.state start k) p == some State.complete)
          ∨ k = start then State.complete else State.inactive))
    ∧ (execVisit g start im inp acc k).outcome
      = (if 0 < (g.G.predecessors k).countP
            (fun p => mapGet (execInitState acc.state start k) p == some State.complete)
          ∧ n.type = .outcome ∧ acc.outcome.priority < n.priority
        then n else acc.outcome) := by
  unfold execVisit at hverr ⊢
  simp only [hv] at hverr ⊢
  rcases hav : (acc.cg.addVertex v).2 with _ | err
  · simp only [hav] at hverr ⊢
    rcases hcc : countCompleted (execInitState acc.state start k) k
        (acc.cg.addVertex v).1 0 (g.G.predecessors k) with ⟨cg2, cnt, _ | msg⟩
    · simp only [hcc] at hverr ⊢
      have hcnt := countCompleted_spec (execInitState acc.state start k) k
        (g.G.predecessors k) (acc.cg.addVertex v).1 cg2 0 cnt hcc
      simp only [Nat.zero_add] at hcnt
      simp only [hb]
      rw [← hcnt]
      by_cases hc : 0 < cnt
      · constructor
        · simp [hc, mapGet_mapInsert]
        · simp [hc]
      · have hc0 : cnt = 0 := by omega
        constructor
        · by_cases hks : k = start
          · simp [hc0, hks, execInitState_get_self]
          · simp [hc0, hks, execInitState_get_self]
        · simp [hc0]
    · simp only [hcc] at hverr
      exact absurd hverr (by simp)
  · simp only [hav] at hverr
    exact absurd hverr (by simp)

theorem execVisit_outcome_other (g : Graph) (start : String) (im inp : GoMap)
    (acc : VisitAcc) (k : String) (v : step.Step)
    (hv : g.G.vertex k = some v) (hbody : ∀ n, v.body ≠ .ref n) :
    (execVisit g start im inp acc k).outcome = acc.outcome := by
  unfold execVisit
  simp only [hv]
  rcases hav : (acc.cg.addVertex v).2 with _ | err
  · simp only [hav]
    rcases hcc : countCompleted (execInitState acc.state start k) k
        (acc.cg.addVertex v).1 0 (g.G.predecessors k) with ⟨cg2, cnt, _ | msg⟩
    · simp only [hcc]
      rcases hb : v.body with expr | op | n | ⟨nm, cf⟩
      · repeat' split
        all_goals first | rfl | simp_all
      · repeat' split
        all_goals first | rfl | simp_all
      · exact absurd hb (hbody n)
      · repeat' split
        all_goals first | rfl | simp_all
    · simp only [hcc]
  · simp only [hav]

theorem execVisit_outcome_cases (g : Graph) (start : String) (im inp : GoMap)
    (acc : VisitAcc) (k : String) :
    (execVisit g start im inp acc k).outcome = acc.outcome
      ∨ acc.outcome.priority < (execVisit g start im inp acc k).outcome.priority := by
  unfold execVisit
  rcases hv : g.G.vertex k with _ | v
  · simp only [hv]
    first | exact Or.inl True.intro | exact Or.inl rfl
  · simp only [hv]
    rcases hav : (acc.cg.addVertex v).2 with _ | err
    · simp only [hav]
      rcases hcc : countCompleted (execInitState acc.state start k) k
          (acc.cg.addVertex v).1 0 (g.G.predecessors k) with ⟨cg2, cnt, _ | msg⟩
      · simp only [hcc]
        rcases hb : v.body with expr | op | n | ⟨nm, cf⟩
        all_goals repeat' split
        all_goals first
          | exact Or.inl True.intro
          | exact Or.inl rfl
          | simp_all
          | (rename_i hcond; exact Or.inr hcond.2.2)
      · simp only [hcc]
        first | exact Or.inl True.intro | exact Or.inl rfl
    · simp only [hav]
      first | exact Or.inl True.intro | exact Or.inl rfl



/-- Any state other than `Inactive` recorded at a non-start vertex
requires a positive completed-predecessor count. -/
theorem execVisit_nonzero_of_nonInactive (g : Graph) (start : String) (im inp : GoMap)
    (acc : VisitAcc) (k : String) (v : step.Step) (st : State)
    (hv : g.G.vertex k = some v) (hks : k ≠ start)
    (hverr : (execVisit g start im inp acc k).verr = none)
    (hst : mapGet (execVisit g start im inp acc k).state k = some st)
    (hne : st ≠ .inactive)
    (hlen : g.G.predecessors k ≠ []) :
    0 < (g.G.predecessors k).countP
      (fun p => mapGet (execInitState acc.state start k) p == some State.complete) := by
  unfold execVisit at hverr hst
  simp only [hv] at hverr hst
  rcases hav : (acc.cg.addVertex v).2 with _ | err
  · simp only [hav] at hverr hst
    rcases hcc : countCompleted (execInitState acc.state start k) k
        (acc.cg.addVertex v).1 0 (g.G.predecessors k) with ⟨cg2, cnt, _ | msg⟩
    · simp only [hcc] at hverr hst
      have hcnt := countCompleted_spec (execInitState acc.state start k) k
        (g.G.predecessors k) (acc.cg.addVertex v).1 cg2 0 cnt hcc
      simp only [Nat.zero_add] at hcnt
      rw [← hcnt]
      rcases hb : v.body with expr | op | n | ⟨nm, cf⟩ <;> simp only [hb] at hst
      · by_cases hc : cnt = 0
        · simp [hc, execInitState_get_self, hks] at hst
          exact absurd hst.symm hne
        · omega
      · rcases op with _ | _
        · by_cases hc : cnt = (g.G.predecessors k).length
          · have : (g.G.predecessors k).length ≠ 0 := by
              intro h0
              exact hlen (List.length_eq_zero.1 h0)
            omega
          · simp [hc, execInitState_get_self, hks] at hst
            exact absurd hst.symm hne
        · by_cases hc : 0 < cnt
          · exact hc
          · simp [Nat.not_lt.1 hc |> Nat.le_zero.1, execInitState_get_self, hks] at hst
            exact absurd hst.symm hne
      · by_cases hc : 0 < cnt
        · exact hc
        · have hc0 : cnt = 0 := by omega
          simp [hc0, execInitState_get_self, hks] at hst
          exact absurd hst.symm hne
      · by_cases hc : 0 < cnt
        · exact hc
        · have hc0 : cnt = 0 := by omega
          rcases cf with _ | f
          · simp [hc0, execInitState_get_self, hks] at hst
            exact absurd hst.symm hne
          · simp [hc0, execInitState_get_self, hks] at hst
            exact absurd hst.symm hne
    · simp only [hcc] at hverr
      exact absurd hverr (by simp)
  · simp only [hav] at hverr
    exact absurd hverr (by simp)

/-- A non-start vertex recorded as non-`Inactive` by a visit has a
predecessor the accumulator already records as `Complete`. -/
theorem execVisit_pred_complete (g : Graph) (start : String) (im inp : GoMap)
    (acc : VisitAcc) (k : String) (v : step.Step) (st : State)
    (hv : g.G.vertex k = some v) (hks : k ≠ start)
    (hverr : (execVisit g start im inp acc k).verr = none)
    (hst : mapGet (execVisit g start im inp acc k).state k = some st)
    (hne : st ≠ .inactive)
    (hlen : g.G.predecessors k ≠ []) :
    ∃ p, p ∈ g.G.predecessors k ∧ mapGet acc.state p = some State.complete := by
  have hpos := execVisit_nonzero_of_nonInactive g start im inp acc k v st hv hks hverr hst hne hlen
  obtain ⟨p, hp, hpc⟩ := List.countP_pos_iff.1 hpos
  have hpc2 : mapGet (execInitState acc.state start k) p = some State.complete := by
    simpa using hpc
  have hpk : p ≠ k := by
    intro hpe
    rw [hpe, execInitState_get_self, if_neg hks] at hpc2
    exact State.noConfusion (Option.some_inj.1 hpc2)
  refine ⟨p, hp, ?_⟩
  rw [← execInitState_get_ne acc.state start k p hpk]
  exact hpc2

theorem runVisits_skip (g : Graph) (start : String) (im inp : GoMap)
    (l : List String) (acc : VisitAcc) (h : acc.verr.isSome) :
    runVisits g start im inp l acc = acc := by
  induction l with
  | nil => rfl
  | cons k rest ih =>
      unfold runVisits at ih ⊢
      simp only [List.foldl_cons, h, if_true]
      exact ih

theorem runVisits_cons (g : Graph) (start : String) (im inp : GoMap)
    (k : String) (rest : List String) (acc : VisitAcc) :
    runVisits g start im inp (k :: rest) acc
      = runVisits g start im inp rest
          (if acc.verr.isSome then acc else execVisit g start im inp acc k) := rfl

theorem runVisits_append (g : Graph) (start : String) (im inp : GoMap)
    (l1 l2 : List String) (acc : VisitAcc) :
    runVisits g start im inp (l1 ++ l2) acc
      = runVisits g start im inp l2 (runVisits g start im inp l1 acc) := by
  unfold runVisits
  exact List.foldl_append _ _ l1 l2

theorem runVisits_verr_none_of (g : Graph) (start : String) (im inp : GoMap)
    (l : List String) (acc : VisitAcc)
    (h : (runVisits g start im inp l acc).verr = none) : acc.verr = none := by
  by_cases hs : acc.verr.isSome
  · rw [runVisits_skip g start im inp l acc hs] at h
    rw [h] at hs
    simp at hs
  · exact Option.not_isSome_iff_eq_none.1 hs

theorem runVisits_state_ne (g : Graph) (start : String) (im inp : GoMap) (k : String) :
    ∀ (l : List String) (acc : VisitAcc), k ∉ l →
      mapGet (runVisits g start im inp l acc).state k = mapGet acc.state k := by
  intro l
  induction l with
  | nil => intro acc _; rfl
  | cons k0 rest ih =>
      intro acc hk
      have hkk0 : k ≠ k0 := fun hc => hk (hc ▸ List.mem_cons_self k0 rest)
      have hkrest : k ∉ rest := fun hc => hk (List.mem_cons_of_mem _ hc)
      rw [runVisits_cons]
      rw [ih _ hkrest]
      by_cases hs : acc.verr.isSome
      · simp [hs]
      · simp only [hs, if_false]
        exact execVisit_state_ne g start im inp acc k0 k hkk0

theorem execVisit_isSome_mono (g : Graph) (start : String) (im inp : GoMap)
    (acc : VisitAcc) (k0 k : String)
    (h : (mapGet acc.state k).isSome) :
    (mapGet (execVisit g start im inp acc k0).state k).isSome := by
  by_cases hk : k = k0
  · subst hk
    exact execVisit_isSome_self g start im inp acc k
  · rw [execVisit_state_ne g start im inp acc k0 k hk]
    exact h

theorem runVisits_isSome_mono (g : Graph) (start : String) (im inp : GoMap) (k : String) :
    ∀ (l : List String) (acc : VisitAcc),
      (mapGet acc.state k).isSome →
      (mapGet (runVisits g start im inp l acc).state k).isSome := by
  intro l
  induction l with
  | nil => intro acc h; exact h
  | cons k0 rest ih =>
      intro acc h
      rw [runVisits_cons]
      apply ih
      by_cases hs : acc.verr.isSome
      · simpa [hs] using h
      · simp only [hs, if_false]
        exact execVisit_isSome_mono g start im inp acc k0 k h

theorem runVisits_mem_isSome (g : Graph) (start : String) (im inp : GoMap) (k : String) :
    ∀ (l : List String) (acc : VisitAcc), k ∈ l →
      (runVisits g start im inp l acc).verr = none →
      (mapGet (runVisits g start im inp l acc).state k).isSome := by
  intro l
  induction l with
  | nil => intro acc h; simp at h
  | cons k0 rest ih =>
      intro acc hk hverr
      have haccv : acc.verr = none := runVisits_verr_none_of _ _ _ _ _ _ hverr
      rw [runVisits_cons] at hverr ⊢
      simp only [haccv, Option.isSome_none, Bool.false_eq_true, if_false] at hverr ⊢
      rcases List.mem_cons.1 hk with rfl | hk2
      · apply runVisits_isSome_mono
        exact execVisit_isSome_self g start im inp acc k
      · exact ih _ hk2 hverr

/-- Unpacking a successful `Execute`: the start vertex is a `Start`
ref, the visitor fold finished without error, and the result fields are
the fold's. -/
theorem Execute_ok (g : Graph) (start : String) (input : GoMap) (res : Result)
    (hex : Execute g start input = .ok res) :
    ∃ sv sn, g.G.vertex start = some sv ∧ sv.body = .ref sn ∧ sn.type = .start ∧
      (runVisits g start (NewInputMap "input" input) input (g.G.bfsOrder start) initAcc).verr
        = none ∧
      res.state
        = (runVisits g start (NewInputMap "input" input) input (g.G.bfsOrder start) initAcc).state ∧
      res.outcome
        = (runVisits g start (NewInputMap "input" input) input (g.G.bfsOrder start) initAcc).outcome.id := by
  unfold Execute at hex
  rcases hv : g.G.vertex start with _ | sv
  · rw [hv] at hex
    exact absurd hex (by simp)
  · rw [hv] at hex
    rcases hb : sv.body with expr | op | n | ⟨nm, cf⟩ <;> simp only [hb] at hex
    · exact absurd hex (by simp)
    · exact absurd hex (by simp)
    · by_cases ht : n.type = node.NType.start
      · simp only [ht] at hex
        rw [if_neg (fun hne => hne rfl)] at hex
        rcases hverr : (runVisits g start (NewInputMap "input" input) input
            (g.G.bfsOrder start) initAcc).verr with _ | msg
        · rw [hverr] at hex
          injection hex with hex
          refine ⟨sv, n, rfl, hb, ht, rfl, ?_, ?_⟩
          · rw [← hex]
          · rw [← hex]
        · rw [hverr] at hex
          exact absurd hex (by simp)
      · rw [if_pos ht] at hex
        exact absurd hex (by simp)
    · exact absurd hex (by simp)



/-- The induction bundle for one execution: (1) the state map's domain
is the processed prefix; (2) every non-`Inactive` non-start entry has a
`Complete` predecessor; (3) the running outcome is either still the
zero node or a positively-prioritised Complete outcome-ref vertex; (4)
the running outcome's priority dominates every Complete outcome-ref
vertex recorded so far. -/
def ExecInv (g : Graph) (start : String) (processed : List String) (acc : VisitAcc) : Prop :=
  (∀ k, (mapGet acc.state k).isSome → k ∈ processed)
  ∧ (∀ k st, mapGet acc.state k = some st → st ≠ State.inactive → k ≠ start →
      ∃ p, p ∈ g.G.predecessors k ∧ mapGet acc.state p = some State.complete)
  ∧ (acc.outcome = node.Node.zero
      ∨ ∃ k v n, g.G.vertex k = some v ∧ v.body = .ref n ∧ n.type = .outcome
          ∧ acc.outcome = n ∧ mapGet acc.state k = some State.complete ∧ 0 < n.priority)
  ∧ (∀ k v n, g.G.vertex k = some v → v.body = .ref n → n.type = .outcome →
      mapGet acc.state k = some State.complete → n.priority ≤ acc.outcome.priority)

theorem execVisit_inv (g : Graph) (start : String) (im inp : GoMap)
    (sv : step.Step) (sn : node.Node)
    (hsv : g.G.vertex start = some sv) (hsb : sv.body = .ref sn)
    (hsn : sn.type = .start)
    (processed : List String) (acc : VisitAcc) (k0 : String)
    (hk0 : k0 ∉ processed)
    (hpredk0 : k0 ≠ start → g.G.predecessors k0 ≠ [])
    (hverr : (execVisit g start im inp acc k0).verr = none)
    (hinv : ExecInv g start processed acc) :
    ExecInv g start (processed ++ [k0]) (execVisit g start im inp acc k0) := by
  obtain ⟨inv1, inv2, inv3, inv4⟩ := hinv
  obtain ⟨v0, hv0⟩ := execVisit_some_vertex g start im inp acc k0 hverr
  have hframe : ∀ k, k ≠ k0 →
      mapGet (execVisit g start im inp acc k0).state k = mapGet acc.state k :=
    fun k hk => execVisit_state_ne g start im inp acc k0 k hk
  have hdom : ∀ k, (mapGet (execVisit g start im inp acc k0).state k).isSome →
      k ∈ processed ++ [k0] := by
    intro k hk
    by_cases hkk : k = k0
    · exact List.mem_append.2 (Or.inr (by simp [hkk]))
    · rw [hframe k hkk] at hk
      exact List.mem_append.2 (Or.inl (inv1 k hk))
  have hold : ∀ p, mapGet acc.state p = some State.complete →
      mapGet (execVisit g start im inp acc k0).state p = some State.complete := by
    intro p hp
    have hpmem := inv1 p (by simp [hp])
    have hpk0 : p ≠ k0 := fun hc => hk0 (hc ▸ hpmem)
    rw [hframe p hpk0]
    exact hp
  have hmono : acc.outcome.priority ≤ (execVisit g start im inp acc k0).outcome.priority := by
    rcases execVisit_outcome_cases g start im inp acc k0 with h | h
    · rw [h]
    · omega
  refine ⟨hdom, ?_, ?_, ?_⟩
  · -- (2)
    intro k st hst hne hks
    by_cases hkk : k = k0
    · subst hkk
      obtain ⟨p, hp, hpc⟩ := execVisit_pred_complete g start im inp acc k v0 st
        hv0 hks hverr hst hne (hpredk0 hks)
      exact ⟨p, hp, hold p hpc⟩
    · rw [hframe k hkk] at hst
      obtain ⟨p, hp, hpc⟩ := inv2 k st hst hne hks
      exact ⟨p, hp, hold p hpc⟩
  · -- (3)
    by_cases href : ∃ n, v0.body = .ref n
    · obtain ⟨n, hbn⟩ := href
      obtain ⟨hstate, houtcome⟩ := execVisit_ref g start im inp acc k0 v0 n hv0 hbn hverr
      by_cases hC : 0 < (g.G.predecessors k0).countP
            (fun p => mapGet (execInitState acc.state start k0) p == some State.complete)
          ∧ n.type = .outcome ∧ acc.outcome.priority < n.priority
      · rw [if_pos hC] at houtcome
        right
        refine ⟨k0, v0, n, hv0, hbn, hC.2.1, houtcome, ?_, ?_⟩
        · rw [hstate, if_pos (Or.inl hC.1)]
        · have hge : 0 ≤ acc.outcome.priority := by
            rcases inv3 with hz | ⟨k1, v1, n1, _, _, _, he, _, hpos⟩
            · rw [hz]; simp [node.Node.zero]
            · rw [he]; omega
          have := hC.2.2
          omega
      · rw [if_neg hC] at houtcome
        rcases inv3 with hz | ⟨k1, v1, n1, h1, h2, h3, h4, h5, h6⟩
        · left; rw [houtcome]; exact hz
        · right
          exact ⟨k1, v1, n1, h1, h2, h3, by rw [houtcome]; exact h4, hold k1 h5, h6⟩
    · have hb2 : ∀ n, v0.body ≠ .ref n := fun n hn => href ⟨n, hn⟩
      have houtcome := execVisit_outcome_other g start im inp acc k0 v0 hv0 hb2
      rcases inv3 with hz | ⟨k1, v1, n1, h1, h2, h3, h4, h5, h6⟩
      · left; rw [houtcome]; exact hz
      · right
        exact ⟨k1, v1, n1, h1, h2, h3, by rw [houtcome]; exact h4, hold k1 h5, h6⟩
  · -- (4)
    intro k v n hv hb hn hst
    by_cases hkk : k = k0
    · subst hkk
      have hvv : v = v0 := by
        rw [hv0] at hv
        exact (Option.some_inj.1 hv).symm
      subst hvv
      have hks : k ≠ start := by
        intro he
        rw [he, hsv] at hv0
        have hv0sv : v = sv := (Option.some_inj.1 hv0).symm
        rw [hv0sv, hsb] at hb
        injection hb with hb2
        rw [← hb2, hsn] at hn
        exact node.NType.noConfusion hn
      obtain ⟨hstate, houtcome⟩ := execVisit_ref g start im inp acc k v n hv0 hb hverr
      have hcntpos : 0 < (g.G.predecessors k).countP
          (fun p => mapGet (execInitState acc.state start k) p == some State.complete) := by
        by_cases hc : 0 < (g.G.predecessors k).countP
            (fun p => mapGet (execInitState acc.state start k) p == some State.complete)
            ∨ k = start
        · rcases hc with hc | hc
          · exact hc
          · exact absurd hc hks
        · rw [hstate, if_neg hc] at hst
          exact absurd (Option.some_inj.1 hst) (by simp)
      by_cases hC : acc.outcome.priority < n.priority
      · rw [if_pos ⟨hcntpos, hn, hC⟩] at houtcome
        rw [houtcome]
      · have hnc : ¬ (0 < (g.G.predecessors k).countP
            (fun p => mapGet (execInitState acc.state start k) p == some State.complete)
            ∧ n.type = .outcome ∧ acc.outcome.priority < n.priority) :=
          fun hcc => hC hcc.2.2
        rw [if_neg hnc] at houtcome
        rw [houtcome]
        omega
    · rw [hframe k hkk] at hst
      have := inv4 k v n hv hb hn hst
      omega



theorem runVisits_inv (g : Graph) (start : String) (im inp : GoMap)
    (sv : step.Step) (sn : node.Node)
    (hsv : g.G.vertex start = some sv) (hsb : sv.body = .ref sn)
    (hsn : sn.type = .start) :
    ∀ (l processed : List String) (acc : VisitAcc),
      (processed ++ l).Nodup →
      (∀ k ∈ l, k ≠ start → g.G.predecessors k ≠ []) →
      (runVisits g start im inp l acc).verr = none →
      ExecInv g start processed acc →
      ExecInv g start (processed ++ l) (runVisits g start im inp l acc) := by
  intro l
  induction l with
  | nil =>
      intro processed acc hnd hpred hverr hinv
      simpa using hinv
  | cons k0 rest ih =>
      intro processed acc hnd hpred hverr hinv
      have hacc : acc.verr = none := runVisits_verr_none_of g start im inp _ _ hverr
      rw [runVisits_cons] at hverr ⊢
      simp only [hacc, Option.isSome_none, Bool.false_eq_true, if_false] at hverr ⊢
      have hverr1 : (execVisit g start im inp acc k0).verr = none :=
        runVisits_verr_none_of g start im inp _ _ hverr
      have hk0 : k0 ∉ processed := by
        have hdisj := List.disjoint_of_nodup_append hnd
        intro hc
        exact hdisj hc (List.mem_cons_self k0 rest)
      have hstep := execVisit_inv g start im inp sv sn hsv hsb hsn processed acc k0
        hk0 (fun h => hpred k0 (List.mem_cons_self k0 rest) h) hverr1 hinv
      have hnd2 : ((processed ++ [k0]) ++ rest).Nodup := by
        simpa [List.append_assoc] using hnd
      have hres := ih (processed ++ [k0]) (execVisit g start im inp acc k0) hnd2
        (fun k hk h => hpred k (List.mem_cons_of_mem _ hk) h) hverr hstep
      simpa [List.append_assoc] using hres

/-- The executed-order invariant instantiated to a whole successful
execution. -/
theorem Execute_inv (g : Graph) (start : String) (input : GoMap) (res : Result)
    (hex : Execute g start input = .ok res) :
    ExecInv g start (g.G.bfsOrder start)
      (runVisits g start (NewInputMap "input" input) input (g.G.bfsOrder start) initAcc) := by
  obtain ⟨sv, sn, hsv, hsb, hsn, hverr, hstate, houtcome⟩ :=
    Execute_ok g start input res hex
  have hinv0 : ExecInv g start [] initAcc := by
    refine ⟨?_, ?_, Or.inl rfl, ?_⟩
    · intro k hk
      simp [initAcc, mapGet_nil] at hk
    · intro k st hst
      simp [initAcc, mapGet_nil] at hst
    · intro k v n _ _ _ hst
      simp [initAcc, mapGet_nil] at hst
  have := runVisits_inv g start (NewInputMap "input" input) input sv sn hsv hsb hsn
    (g.G.bfsOrder start) [] initAcc (by simpa using graph.bfsOrder_nodup g.G start)
    (fun k hk hks => graph.bfsOrder_pred_exists g.G start k hk hks)
    hverr hinv0
  simpa using this



theorem mapGet_isSome_mem {α : Type} (m : List (String × α)) (k : String)
    (h : (mapGet m k).isSome) : k ∈ m.map Prod.fst := by
  unfold mapGet at h
  rcases hf : m.find? (fun kv => kv.1 == k) with _ | e
  · rw [hf] at h
    simp at h
  · have hmem := List.mem_of_find?_eq_some hf
    have hkey := List.find?_some hf
    have hek : e.1 = k := by simpa using hkey
    exact hek ▸ List.mem_map.2 ⟨e, hmem, rfl⟩


/-! # Claims -/

/-- **C1** (code_bug): `parseNodeRef`'s kind-mismatch guard compares
`n.Type` — a field the function itself just assigned from `nodeType` —
against `nodeType`, so it can never fire: a step form whose kind
disagrees with the dialect's declared node parses successfully and
returns the dialect's node (here a Start node on an `outcome:` step)
instead of failing.  The id-overwrite and name-adoption halves of the
claim are visible in the returned step. -/
theorem C1_kind_mismatch_never_fails :
    step.parseNodeRef stepBeforeParse "x" dialectStartX .outcome
      = .ok (.mk [] "Request"
          (.ref { type := .start, id := "x", name := "Request", priority := 0 })
          [] (some 7) "default") := rfl

/-- **C2** (code_bug): `noderr.Wrap` never returns an already-wrapped
error unchanged — its `errors.Is(err, &ne)` test (against a fresh
`*NodeError` for a value-typed error with no `Is`/`Unwrap` method) is
always false, so wrapping a `NodeError` again produces a new
`NodeError` carrying the *outer* handle instead of the inner one. -/
theorem C2_wrap_double_wraps :
    noderr.Wrap (.nodeError (.plain "boom") (some 1)) (some 2)
        = .nodeError (.nodeError (.plain "boom") (some 1)) (some 2)
      ∧ noderr.Wrap (.nodeError (.plain "boom") (some 1)) (some 2)
        ≠ .nodeError (.plain "boom") (some 1) := by
  exact ⟨rfl, by decide⟩

/-- **C7** (confirmed): a `Ref` step hashes to its node id alone,
independent of pass and position; every other body hashes to
`pass ++ "." ++ dot-joined position`; consequently the two-pass program
sharing start id `A` and outcome id `B` compiles to a graph whose
vertex set has a single `A` and a single `B` vertex while the two
`Check` steps stay distinct (`first.1`, `second.1`), with both passes
converging on the shared refs. -/
theorem C7_hash_unifies_refs :
    (∀ (pos : List Nat) (nm : String) (n : node.Node) (ch : List step.Step)
        (nd : Option Nat) (pass : String),
        step.Hash (.mk pos nm (.ref n) ch nd pass) = n.id)
  ∧ (∀ (pos : List Nat) (nm : String) (b : step.Body) (ch : List step.Step)
        (nd : Option Nat) (pass : String),
        (∀ n, b ≠ .ref n) →
        step.Hash (.mk pos nm b ch nd pass)
          = pass ++ "." ++ String.intercalate "." (pos.map toString))
  ∧ ((compTwoPass.Compile litEnv).toOption.map (fun g => g.G.vertices.map Prod.fst)
        = some ["A", "first.1", "B", "second.1"])
  ∧ ((compTwoPass.Compile litEnv).toOption.map (fun g => g.G.edges)
        = some [("A", "first.1"), ("first.1", "B"), ("A", "second.1"), ("second.1", "B")]) := by
  refine ⟨fun _ _ _ _ _ _ => rfl, fun pos nm b ch nd pass hb => ?_, by rfl, by rfl⟩
  unfold step.Hash
  cases b with
  | ref n => exact absurd rfl (hb n)
  | check e => rfl
  | boolean op => rfl
  | action nm cf => rfl

/-- Witness for C7: the non-ref half applied at a concrete check step. -/
theorem C7_hash_unifies_refs_witness :
    step.Hash (.mk [1] "" (.check "true") [] none "default") = "default.1" := by
  have h := C7_hash_unifies_refs.2.1 [1] "" (.check "true") [] none "default"
    (fun n hn => step.Body.noConfusion hn)
  simpa using h

/-- **C8** (confirmed): for a dotted name registered in the provider's
flattened map, `FindType` returns the any type for an object node with
`additionalProperties = true`, a nominal object type named by the
dotted path for any other object node, list-of-string for arrays,
double for number, int for integer, and the matching scalar types for
string, boolean and null. -/
theorem C8_findType_cases (p : jsoncel.Provider) (name : String)
    (f : jsoncel.Schema) (h : mapGet p.typeMap name = some f) :
    (f.type = .object → f.additionalPropertiesTrue = true →
        p.FindType name = some .anyType)
  ∧ (f.type = .object → f.additionalPropertiesTrue = false →
        p.FindType name = some (.objectType name))
  ∧ (f.type = .array → p.FindType name = some (.listType .stringType))
  ∧ (f.type = .number → p.FindType name = some .doubleType)
  ∧ (f.type = .integer → p.FindType name = some .intType)
  ∧ (f.type = .string → p.FindType name = some .stringType)
  ∧ (f.type = .boolean → p.FindType name = some .boolType)
  ∧ (f.type = .null → p.FindType name = some .nullType) := by
  unfold jsoncel.Provider.FindType
  rw [h]
  refine ⟨fun ht ha => by simp [ht, ha], fun ht ha => by simp [ht, ha],
    fun ht => by simp [ht], fun ht => by simp [ht], fun ht => by simp [ht],
    fun ht => by simp [ht], fun ht => by simp [ht], fun ht => by simp [ht]⟩

/-- Witness for C8: the provider built from the all-types schema maps
`input.group` (an object without `additionalProperties`) to the nominal
object type named `input.group`, and `input.tags` (an object with
`additionalProperties = true`) to the any type. -/
theorem C8_findType_cases_witness :
    providerAllTypes.FindType "input.group"
        = some (.objectType "input.group")
      ∧ providerAllTypes.FindType "input.tags" = some .anyType := by
  constructor
  · exact (C8_findType_cases providerAllTypes "input.group"
      (.mk .object [("id", .mk .string [] false)] false) (by rfl)).2.1 rfl rfl
  · exact (C8_findType_cases providerAllTypes "input.tags"
      (.mk .object [] true) (by rfl)).1 rfl rfl

/-- **C3** (confirmed): a visited `Boolean(And)` vertex is marked
`Complete` iff the number of its predecessors recorded `Complete` at
visit time equals the total number of predecessors and that number is
positive.  The visit-time state is the fold state after the earlier
part of the BFS order; a visited non-start vertex always has at least
one predecessor, so the `len > 0` conjunct holds whenever the count
conjunct does. -/
theorem C3_and_complete_iff_all_preds (g : Graph) (start : String) (input : GoMap)
    (res : Result) (hex : Execute g start input = .ok res)
    (pre post : List String) (k : String) (v : step.Step)
    (hsplit : g.G.bfsOrder start = pre ++ k :: post)
    (hv : g.G.vertex k = some v) (hb : v.body = .boolean .and) :
    (mapGet res.state k = some State.complete ↔
      ((g.G.predecessors k).countP (fun p =>
          mapGet (execInitState
              (runVisits g start (NewInputMap "input" input) input pre initAcc).state
              start k) p == some State.complete)
        = (g.G.predecessors k).length
      ∧ g.G.predecessors k ≠ [])) := by
  obtain ⟨sv, sn, hsv, hsb, hsn, hverr, hstate, houtcome⟩ := Execute_ok g start input res hex
  have hks : k ≠ start := by
    intro he
    subst he
    rw [hsv] at hv
    have hvv : sv = v := Option.some_inj.1 hv
    rw [← hvv, hsb] at hb
    exact step.Body.noConfusion hb
  have hkord : k ∈ g.G.bfsOrder start := by
    rw [hsplit]
    exact List.mem_append.2 (Or.inr (List.mem_cons_self k post))
  have hnd := graph.bfsOrder_nodup g.G start
  rw [hsplit] at hnd
  have hkpost : k ∉ post := by
    have h2 := hnd.of_append_right
    exact (List.nodup_cons.1 h2).1
  rw [hsplit, runVisits_append, runVisits_cons] at hverr hstate
  set im := NewInputMap "input" input with him
  set accP := runVisits g start im input pre initAcc with haccP
  have hXv : (if accP.verr.isSome then accP else execVisit g start im input accP k).verr
      = none := runVisits_verr_none_of g start im input post _ hverr
  have haccPv : accP.verr = none := by
    by_cases hs : accP.verr.isSome
    · rw [if_pos hs] at hXv
      rw [hXv] at hs
      simp at hs
    · exact Option.not_isSome_iff_eq_none.1 hs
  rw [if_neg (by simp [haccPv])] at hXv hstate
  have hfin : mapGet res.state k
      = mapGet (execVisit g start im input accP k).state k := by
    rw [hstate]
    exact runVisits_state_ne g start im input k post _ hkpost
  have hdesc := execVisit_boolean g start im input accP k v .and hv hb hXv hks
  rw [hfin, hdesc]
  have hpne : g.G.predecessors k ≠ [] :=
    graph.bfsOrder_pred_exists g.G start k hkord hks
  constructor
  · intro h
    by_cases hC : (g.G.predecessors k).countP (fun p =>
        mapGet (execInitState accP.state start k) p == some State.complete)
      = (g.G.predecessors k).length
    · exact ⟨hC, hpne⟩
    · exfalso
      rw [if_neg] at h
      · exact State.noConfusion (Option.some_inj.1 h)
      · rintro (⟨_, hc⟩ | ⟨hor, _⟩)
        · exact hC hc
        · exact step.Operation.noConfusion hor
  · rintro ⟨h1, _⟩
    rw [if_pos (Or.inl ⟨rfl, h1⟩)]

/-- Witness for C3: the And vertex of the two-check And program,
visited fourth; both checks are `Complete` at its visit, and it is
indeed `Complete` in the final state. -/
theorem C3_and_complete_iff_all_preds_witness :
    (Execute gAnd "A" [] = .ok resAnd)
  ∧ mapGet resAnd.state "default.1" = some State.complete
  ∧ (mapGet resAnd.state "default.1" = some State.complete ↔
      ((gAnd.G.predecessors "default.1").countP (fun p =>
          mapGet (execInitState
              (runVisits gAnd "A" (NewInputMap "input" []) []
                ["A", "default.1.0", "default.1.1"] initAcc).state
              "A" "default.1") p == some State.complete)
        = (gAnd.G.predecessors "default.1").length
      ∧ gAnd.G.predecessors "default.1" ≠ [])) := by
  refine ⟨rfl, rfl, ?_⟩
  exact C3_and_complete_iff_all_preds gAnd "A" [] resAnd rfl
    ["A", "default.1.0", "default.1.1"] ["B"] "default.1" vAnd rfl rfl rfl

set_option maxHeartbeats 2000000 in
/-- **C4** (counterexample): the BFS order does *not* place every
predecessor of a vertex before the vertex.  In the nested-Boolean
program the And vertex `default.1` is visited at index 4 while its
predecessor, the Or vertex `default.1.1`, is visited only at index 5;
consequently the And reads the Or as `Inactive`, stays `Inactive`
itself, and the outcome is empty, although the Or (and every check)
ends the run `Complete`. -/
theorem C4_counterexample :
    compNested.Compile litEnv = .ok gNested
  ∧ gNested.G.bfsOrder "A"
      = ["A", "default.1.0", "default.1.1.0", "default.1.1.1",
         "default.1", "default.1.1", "D"]
  ∧ "default.1.1" ∈ gNested.G.predecessors "default.1"
  ∧ (gNested.G.bfsOrder "A").indexOf "default.1"
      < (gNested.G.bfsOrder "A").indexOf "default.1.1"
  ∧ Execute gNested "A" [] = .ok resNested
  ∧ mapGet resNested.state "default.1" = some State.inactive
  ∧ mapGet resNested.state "default.1.1" = some State.complete
  ∧ resNested.outcome = "" := by
  have horder : gNested.G.bfsOrder "A"
      = ["A", "default.1.0", "default.1.1.0", "default.1.1.1",
         "default.1", "default.1.1", "D"] := rfl
  have hpred : gNested.G.predecessors "default.1"
      = ["default.1.0", "default.1.1"] := rfl
  refine ⟨rfl, horder, ?_, ?_, rfl, rfl, rfl, rfl⟩
  · rw [hpred]
    decide
  · rw [horder]
    decide

/-- **C4** (amended): what the traversal of `Execute` does guarantee is
weaker than the claim: every vertex in the visit order other than the
start has at least one predecessor (its BFS parent) strictly earlier in
the order — not all of them. -/
theorem C4_some_pred_visited_earlier (g : Graph) (start : String) (input : GoMap)
    (res : Result) (hex : Execute g start input = .ok res)
    (v : String) (hv : v ∈ g.G.bfsOrder start) (hvs : v ≠ start) :
    ∃ p, p ∈ g.G.predecessors v ∧
      (g.G.bfsOrder start).indexOf p < (g.G.bfsOrder start).indexOf v := by
  have _ := hex
  exact graph.bfsOrder_pred_earlier g.G start v hv hvs

/-- Witness for the amended C4: the check vertex of the linear program
has its one predecessor (the start) earlier in the order. -/
theorem C4_some_pred_visited_earlier_witness :
    (Execute gLinear "A" [] = .ok resLinear)
  ∧ "default.1" ∈ gLinear.G.bfsOrder "A"
  ∧ "default.1" ≠ "A"
  ∧ ∃ p, p ∈ gLinear.G.predecessors "default.1"
      ∧ (gLinear.G.bfsOrder "A").indexOf p
          < (gLinear.G.bfsOrder "A").indexOf "default.1" := by
  refine ⟨rfl, by decide, by decide, ?_⟩
  exact C4_some_pred_visited_earlier gLinear "A" [] resLinear rfl "default.1"
    (by decide) (by decide)

/-- **C5** (confirmed): a non-empty `Result.Outcome` names a `Complete`
Outcome-ref vertex whose node priority dominates the priority of every
`Complete` Outcome-ref vertex of the run. -/
theorem C5_outcome_is_max_complete (g : Graph) (start : String) (input : GoMap)
    (res : Result) (hex : Execute g start input = .ok res) (hne : res.outcome ≠ "") :
    ∃ k v n, g.G.vertex k = some v ∧ v.body = .ref n ∧ n.type = .outcome
      ∧ n.id = res.outcome ∧ mapGet res.state k = some State.complete
      ∧ ∀ k2 v2 n2, g.G.vertex k2 = some v2 → v2.body = .ref n2 →
          n2.type = .outcome → mapGet res.state k2 = some State.complete →
          n2.priority ≤ n.priority := by
  obtain ⟨sv, sn, hsv, hsb, hsn, hverr, hstate, houtcome⟩ := Execute_ok g start input res hex
  obtain ⟨_, _, inv3, inv4⟩ := Execute_inv g start input res hex
  rcases inv3 with hz | ⟨k, v, n, h1, h2, h3, h4, h5, h6⟩
  · exfalso
    rw [houtcome, hz] at hne
    exact hne rfl
  · refine ⟨k, v, n, h1, h2, h3, ?_, by rw [hstate]; exact h5, ?_⟩
    · rw [houtcome, h4]
    · intro k2 v2 n2 hv2 hb2 hn2 hst2
      rw [hstate] at hst2
      have := inv4 k2 v2 n2 hv2 hb2 hn2 hst2
      rw [h4] at this
      exact this

/-- Witness for C5: the linear program ends with outcome `B`; the
claimed maximal `Complete` Outcome vertex exists. -/
theorem C5_outcome_is_max_complete_witness :
    (Execute gLinear "A" [] = .ok resLinear)
  ∧ resLinear.outcome ≠ ""
  ∧ ∃ k v n, gLinear.G.vertex k = some v ∧ v.body = .ref n ∧ n.type = .outcome
      ∧ n.id = resLinear.outcome ∧ mapGet resLinear.state k = some State.complete
      ∧ ∀ k2 v2 n2, gLinear.G.vertex k2 = some v2 → v2.body = .ref n2 →
          n2.type = .outcome → mapGet resLinear.state k2 = some State.complete →
          n2.priority ≤ n.priority := by
  refine ⟨rfl, by decide, ?_⟩
  exact C5_outcome_is_max_complete gLinear "A" [] resLinear rfl (by decide)

/-- **C6** (confirmed): an `Active` or `Complete` vertex other than the
start has at least one `Complete` predecessor in the final state map. -/
theorem C6_nonstart_active_needs_complete_pred (g : Graph) (start : String)
    (input : GoMap) (res : Result) (hex : Execute g start input = .ok res)
    (k : String) (st : State) (hst : mapGet res.state k = some st)
    (hact : st = .active ∨ st = .complete) (hks : k ≠ start) :
    ∃ p, p ∈ g.G.predecessors k ∧ mapGet res.state p = some State.complete := by
  obtain ⟨sv, sn, hsv, hsb, hsn, hverr, hstate, houtcome⟩ := Execute_ok g start input res hex
  obtain ⟨_, inv2, _, _⟩ := Execute_inv g start input res hex
  rw [hstate] at hst
  have hne : st ≠ .inactive := by rcases hact with h | h <;> simp [h]
  obtain ⟨p, hp, hpc⟩ := inv2 k st hst hne hks
  exact ⟨p, hp, by rw [hstate]; exact hpc⟩

/-- Witness for C6: the `Complete` check vertex of the linear program
has a `Complete` predecessor (the start). -/
theorem C6_nonstart_active_needs_complete_pred_witness :
    (Execute gLinear "A" [] = .ok resLinear)
  ∧ mapGet resLinear.state "default.1" = some State.complete
  ∧ "default.1" ≠ "A"
  ∧ ∃ p, p ∈ gLinear.G.predecessors "default.1"
      ∧ mapGet resLinear.state p = some State.complete := by
  refine ⟨rfl, rfl, by decide, ?_⟩
  exact C6_nonstart_active_needs_complete_pred gLinear "A" [] resLinear rfl
    "default.1" State.complete rfl (Or.inr rfl) (by decide)

/-- **C9** (confirmed): the running outcome starts at the zero node
(priority 0) and is replaced only on strictly greater priority, so when
every Outcome-ref node of the graph has priority at most 0 the result
outcome is the empty string — even when an Outcome vertex completed. -/
theorem C9_zero_priority_outcome_empty (g : Graph) (start : String) (input : GoMap)
    (res : Result) (hex : Execute g start input = .ok res)
    (hlow : ∀ k v n, g.G.vertex k = some v → v.body = .ref n →
      n.type = .outcome → n.priority ≤ 0) :
    res.outcome = "" := by
  obtain ⟨sv, sn, hsv, hsb, hsn, hverr, hstate, houtcome⟩ := Execute_ok g start input res hex
  obtain ⟨_, _, inv3, _⟩ := Execute_inv g start input res hex
  rcases inv3 with hz | ⟨k, v, n, h1, h2, h3, _, _, h6⟩
  · rw [houtcome, hz]
    rfl
  · exfalso
    have := hlow k v n h1 h2 h3
    omega

/-- Witness for C9: the zero-priority program completes its outcome
vertex `B` yet reports an empty outcome. -/
theorem C9_zero_priority_outcome_empty_witness :
    (Execute gZero "A" [] = .ok resZero)
  ∧ mapGet resZero.state "B" = some State.complete
  ∧ resZero.outcome = "" := by
  refine ⟨rfl, rfl, ?_⟩
  refine C9_zero_priority_outcome_empty gZero "A" [] resZero rfl ?_
  intro k v n hv hb hn
  have hvs : mapGet gZero.G.vertices k = some v := hv
  rw [show gZero.G.vertices
      = [("A", step.Step.mk [0] ""
            (.ref { type := .start, id := "A", name := "", priority := 0 }) [] none "default"),
         ("default.1", step.Step.mk [1] "" (.check "true") [] none "default"),
         ("B", step.Step.mk [2] ""
            (.ref { type := .outcome, id := "B", name := "", priority := 0 }) [] none "default")]
    from rfl] at hvs
  rw [mapGet_cons] at hvs
  by_cases h1 : ("A" : String) = k
  · rw [if_pos h1] at hvs
    have hv1 := Option.some_inj.1 hvs
    rw [← hv1] at hb
    have hb2 : step.Body.ref { type := node.NType.start, id := "A", name := "", priority := 0 }
        = .ref n := hb
    injection hb2 with hbn
    rw [← hbn] at hn
    have hn2 : node.NType.start = node.NType.outcome := hn
    exact absurd hn2 (by decide)
  · rw [if_neg h1, mapGet_cons] at hvs
    by_cases h2 : ("default.1" : String) = k
    · rw [if_pos h2] at hvs
      have hv2 := Option.some_inj.1 hvs
      rw [← hv2] at hb
      have hb2 : step.Body.check "true" = .ref n := hb
      exact step.Body.noConfusion hb2
    · rw [if_neg h2, mapGet_cons] at hvs
      by_cases h3 : ("B" : String) = k
      · rw [if_pos h3] at hvs
        have hv3 := Option.some_inj.1 hvs
        rw [← hv3] at hb
        have hb2 : step.Body.ref { type := node.NType.outcome, id := "B", name := "", priority := 0 }
            = .ref n := hb
        injection hb2 with hbn
        rw [← hbn]
      · rw [if_neg h3, mapGet_nil] at hvs
        exact Option.noConfusion hvs

/-- **C10** (confirmed): on a well-formed compiled graph, the domain of
the final state map is exactly the set of vertices reachable from the
start along directed edges — visited vertices get an entry (at least
`Inactive`), unreachable vertices get none. -/
theorem C10_state_domain_eq_reachable (g : Graph) (start : String) (input : GoMap)
    (res : Result) (hex : Execute g start input = .ok res) (hwf : g.G.WF)
    (k : String) :
    (mapGet res.state k).isSome ↔ g.G.Reach start k := by
  obtain ⟨sv, sn, hsv, hsb, hsn, hverr, hstate, houtcome⟩ := Execute_ok g start input res hex
  have hsmem : start ∈ g.G.vertices.map Prod.fst :=
    mapGet_isSome_mem g.G.vertices start
      (by have hm : mapGet g.G.vertices start = some sv := hsv
          rw [hm]
          rfl)
  constructor
  · intro hk
    rw [hstate] at hk
    have hmem := (Execute_inv g start input res hex).1 k hk
    exact graph.bfsOrder_sound g.G start k hmem
  · intro hr
    have hmem := graph.bfsOrder_complete g.G start hwf hsmem k hr
    rw [hstate]
    exact runVisits_mem_isSome g start (NewInputMap "input" input) input k
      (g.G.bfsOrder start) initAcc hmem hverr

/-- Witness for C10: the linear program's graph is well-formed and its
outcome vertex `B` is both reachable and present in the state map. -/
theorem C10_state_domain_eq_reachable_witness :
    (Execute gLinear "A" [] = .ok resLinear)
  ∧ gLinear.G.WF
  ∧ ((mapGet resLinear.state "B").isSome ↔ gLinear.G.Reach "A" "B")
  ∧ (mapGet resLinear.state "B").isSome := by
  refine ⟨rfl, by decide, ?_, rfl⟩
  exact C10_state_domain_eq_reachable gLinear "A" [] resLinear rfl (by decide) "B"

end Glide
